import Mathlib

/-!
# Verification of the `SyncCopyAndMoveFeeder` matching engine

A shallow embedding of the file-matching core in
`src/python/thunder/streaming/feeder/grouping_stream_feeder.py`
(class `SyncCopyAndMoveFeeder` and its helper functions), together with
theorems checking the specification claims about it.

Modelling conventions:
* Python strings are Lean `String`s (byte-wise comparison on ASCII data
  agrees with Lean lexicographic order on characters).
* `time.time()` values and byte sizes are modelled as `Int`; the grace
  period `mismatch_wait_time = 5.0` becomes `5 : Int`.
* Python exceptions (`KeyError`, `ValueError`, the explicit `raise`, …)
  are modelled with `Except String`; a raised exception is an `Except.error`
  that the callers propagate, exactly as an uncaught Python exception does.
* `dict` objects are association lists; `deque` objects are `List`s.
* `os.path.getsize` is an oracle `String → Int` passed to `match_filenames`.
* The two unbounded `while` loops are written with an explicit iteration
  budget (`fuel`) that is at least the number of iterations the loop can
  perform (each continuing iteration pops at least one queue element, so
  total-queue-length + 2 passes suffice); this keeps all definitions
  kernel-computable.
-/

/-! ## Filename parsing helpers (`os.path.basename`, `os.path.splitext`, `split('_', 1)`) -/

/-- `os.path.basename`: the part of the path after the last `'/'`. -/
def pyBasename (p : String) : String :=
  String.mk (p.toList.foldl (fun acc c => if c = '/' then [] else acc ++ [c]) [])

/-- Index of the rightmost `'.'` in a character list, if any. -/
def lastDotIdx (cs : List Char) : Option Nat :=
  (cs.reverse.findIdx? (fun c => c = '.')).map (fun j => cs.length - 1 - j)

/-- The root part of `os.path.splitext`: split at the last dot, except that a
run of leading dots never starts an extension. -/
def pySplitextRoot (b : String) : String :=
  let cs := b.toList
  match lastDotIdx cs with
  | none => b
  | some i => if (cs.take i).any (fun c => c ≠ '.') then String.mk (cs.take i) else b

/-- `bname.split(delim, 1)`: characters before the first `delim`, and the rest
after it (`none` when `delim` does not occur). -/
def splitFirst (delim : Char) : List Char → List Char × Option (List Char)
  | [] => ([], none)
  | c :: t =>
    if c = delim then ([], some t)
    else
      let r := splitFirst delim t
      (c :: r.1, r.2)

/-- `getFilenamePrefixAndPostfix` from the source: basename without extension,
split once on `'_'`; the part after the delimiter is `''` when there is none. -/
def filenameSplitParts (filename : String) : String × String :=
  let bname := pySplitextRoot (pyBasename filename)
  match splitFirst '_' bname.toList with
  | (pre, some post) => (String.mk pre, String.mk post)
  | (pre, none) => (String.mk pre, "")

/-- `getFilenamePrefix`, wrapped in `Option` as the feeder's pluggable
`fname_to_qname_fcn` contract allows (`None` = unresolvable). The default
splitter itself always resolves. -/
def defaultQnameFcn (f : String) : Option String :=
  some (filenameSplitParts f).1

/-- `getFilenamePostfix`, wrapped in `Option` (the feeder's pluggable
`fname_to_timepoint_fcn` contract). -/
def defaultTimepointFcn (f : String) : Option String :=
  some (filenameSplitParts f).2

/-! ## Python `int()` on strings -/

/-- Base-10 digit accumulator; `none` on a non-digit character. -/
def parseDigitsAux : List Char → Nat → Option Nat
  | [], acc => some acc
  | c :: t, acc =>
    if c.isDigit then parseDigitsAux t (acc * 10 + (c.toNat - 48)) else none

/-- Python `int(s)`: optional surrounding whitespace, optional sign, one or
more decimal digits; `none` models the `ValueError` on anything else. -/
def pyInt (s : String) : Option Int :=
  let cs := ((s.toList.dropWhile Char.isWhitespace).reverse.dropWhile Char.isWhitespace).reverse
  match cs with
  | [] => none
  | '-' :: rest =>
    match rest with
    | [] => none
    | _ => (parseDigitsAux rest 0).map (fun n => -(n : Int))
  | '+' :: rest =>
    match rest with
    | [] => none
    | _ => (parseDigitsAux rest 0).map (fun n => (n : Int))
  | _ => (parseDigitsAux cs 0).map (fun n => (n : Int))

/-! ## String comparison

Python 2 compares strings byte-wise lexicographically. We use an explicitly
computable comparison on the character lists (which agrees with Lean's
lexicographic `String` order, see `pyStrLt_iff` below) so that every
definition evaluates inside the kernel. -/

/-- Lexicographic strict comparison of character lists. -/
def charListLt : List Char → List Char → Bool
  | _, [] => false
  | [], _ :: _ => true
  | a :: as, b :: bs => if a = b then charListLt as bs else decide (a < b)

/-- Python `a < b` on strings. -/
def pyStrLt (a b : String) : Bool := charListLt a.toList b.toList

/-- Python `a <= b` on strings (for a total order, `¬ b < a`). -/
def pyStrLe (a b : String) : Bool := ! pyStrLt b a

/-! ## Python 2 `min` over optional strings

In Python 2, `None` compares less than every string, so
`reduce(min, first_elts)` is `None` as soon as any entry is `None`. -/

/-- Python 2 `min(a, b)` where the values are `None`-or-string. -/
def pyMin : Option String → Option String → Option String
  | none, _ => none
  | some _, none => none
  | some a, some b => if pyStrLe a b then some a else some b

/-- `reduce(min, a :: l)` (left fold, as Python `reduce`). -/
def pyFoldMin (a : Option String) (l : List (Option String)) : Option String :=
  l.foldl pyMin a

/-- Python 2 comparison `h < next_elt` where `next_elt` may be `None`
(`str < None` is `False` in Python 2). -/
def headLtOpt (h : String) : Option String → Bool
  | none => false
  | some n => pyStrLt h n

/-! ## Queue sorting helpers (`is_sorted`, `sorted`, `unique_justseen`) -/

/-- `is_sorted` from the source: strict `<` on every adjacent pair, hence
`false` on duplicates. -/
def isSorted : List String → Bool
  | [] => true
  | [_] => true
  | a :: b :: t => pyStrLt a b && isSorted (b :: t)

/-- Tail worker for `unique_justseen`: drop elements equal to the one just
seen. -/
def ujsAux (prev : String) : List String → List String
  | [] => []
  | b :: t => if b = prev then ujsAux prev t else b :: ujsAux b t

/-- `unique_justseen` from the source (with the default key): collapse runs of
equal adjacent elements to their first element. -/
def uniqueJustseen : List String → List String
  | [] => []
  | a :: t => a :: ujsAux a t

/-- Insertion step of `sorted`. -/
def pyOrderedInsert (a : String) : List String → List String
  | [] => [a]
  | b :: l => if pyStrLe a b then a :: b :: l else b :: pyOrderedInsert a l

/-- Python `sorted` on a list of strings (a stable total-order sort; insertion
sort returns the same list for a linear order). -/
def pySorted : List String → List String
  | [] => []
  | a :: l => pyOrderedInsert a (pySorted l)

/-- The per-queue maintenance step of `match_filenames`: re-sort and dedup a
queue only when the strict-order check fails. -/
def sortQueue (q : List String) : List String :=
  if isSorted q then q else uniqueJustseen (pySorted q)

/-! ## The feeder state -/

/-- The matching-relevant state of a `SyncCopyAndMoveFeeder` object.
`queues` is the `qname_to_queue` dict as an association list in iteration
order; `keysToFullnames` is the `(qname, timepoint) → filename` dict. -/
structure SyncFeeder where
  queues : List (String × List String)
  keysToFullnames : List ((String × String) × String)
  fnameToQname : String → Option String
  fnameToTimepoint : String → Option String
  qnameToExpectedSize : Option (List (Option String × Int))
  doCheckSequence : Bool
  lastTimepoint : Option Int
  lastMismatch : Option String
  lastMismatchTime : Option Int
  mismatchWaitTime : Int

/-- Keep-first deduplication, as building a `dict` from the `qnames` iterable
does in the constructor. -/
def dedupKeys : List String → List String
  | [] => []
  | a :: t => a :: (dedupKeys t).filter (fun b => b ≠ a)

/-- The `SyncCopyAndMoveFeeder.__init__` state (only matching-relevant
fields). -/
def mkSyncFeeder (qnames : List String) (fq ft : String → Option String)
    (checkFileSizeMismatch : Bool) (checkSkipInSequence : Bool) : SyncFeeder where
  queues := (dedupKeys qnames).map (fun q => (q, []))
  keysToFullnames := []
  fnameToQname := fq
  fnameToTimepoint := ft
  qnameToExpectedSize := if checkFileSizeMismatch then some [] else none
  doCheckSequence := checkSkipInSequence
  lastTimepoint := none
  lastMismatch := none
  lastMismatchTime := none
  mismatchWaitTime := 5

/-! ## Association-list dictionary operations -/

/-- Lookup in the `keys_to_fullnames` dict. -/
def dictLookup : List ((String × String) × String) → String × String → Option String
  | [], _ => none
  | p :: t, k => if p.1 = k then some p.2 else dictLookup t k

/-- `d[k] = v` on the `keys_to_fullnames` dict: overwrite the first binding of
`k`, or append a new one. -/
def dictInsert : List ((String × String) × String) → String × String → String →
    List ((String × String) × String)
  | [], k, v => [(k, v)]
  | p :: t, k, v => if p.1 = k then (k, v) :: t else p :: dictInsert t k v

/-- `d.pop(k)` on the `keys_to_fullnames` dict; `none` models the `KeyError`
when the key is absent. -/
def dictPop : List ((String × String) × String) → String × String →
    Option (String × List ((String × String) × String))
  | [], _ => none
  | p :: t, k =>
    if p.1 = k then some (p.2, t)
    else (dictPop t k).map (fun r => (r.1, p :: r.2))

/-- `qname_to_queue[qname].append(tpname)`: `none` models the `KeyError` on a
queue name that is not a key of the dict. -/
def queueAppend : List (String × List String) → String → String →
    Option (List (String × List String))
  | [], _, _ => none
  | p :: t, qname, tp =>
    if p.1 = qname then some ((p.1, p.2 ++ [tp]) :: t)
    else (queueAppend t qname tp).map (fun r => p :: r)

/-- `setdefault` on the `qname_to_expected_size` dict: the stored value if the
key is present, otherwise insert and return the given default. -/
def sizeSetdefault (l : List (Option String × Int)) (k : Option String) (v : Int) :
    Int × List (Option String × Int) :=
  match l.find? (fun p => p.1 = k) with
  | some p => (p.2, l)
  | none => (v, l ++ [(k, v)])

/-- Lookup in the `qname_to_expected_size` dict. -/
def sizeLookup (l : List (Option String × Int)) (k : Option String) : Option Int :=
  (l.find? (fun p => p.1 = k)).map (fun p => p.2)

/-! ## The computable comparison agrees with the lexicographic string order -/

theorem charListLt_nil (as : List Char) : charListLt as [] = false := by
  cases as <;> rfl

theorem charListLt_iff_lex (as bs : List Char) :
    charListLt as bs = true ↔ List.Lex (· < ·) as bs := by
  induction as generalizing bs with
  | nil =>
    cases bs with
    | nil => simp [charListLt_nil, List.Lex.not_nil_right]
    | cons b t => simp [charListLt]; exact List.Lex.nil
  | cons a as ih =>
    cases bs with
    | nil => simp [charListLt_nil, List.Lex.not_nil_right]
    | cons b t =>
      by_cases hab : a = b
      · subst hab
        have heq : charListLt (a :: as) (a :: t) = charListLt as t := by
          simp [charListLt]
        rw [heq, ih]
        exact ⟨List.Lex.cons, fun h => List.Lex.cons_iff.mp h⟩
      · simp only [charListLt, if_neg hab, decide_eq_true_eq]
        constructor
        · exact fun h => List.Lex.rel h
        · intro h
          cases h with
          | cons h => exact absurd rfl hab
          | rel h => exact h

theorem pyStrLt_iff (a b : String) : pyStrLt a b = true ↔ a < b := by
  rw [pyStrLt, charListLt_iff_lex, String.lt_iff_toList_lt]
  exact Iff.rfl

theorem pyStrLt_eq_false_iff (a b : String) : pyStrLt a b = false ↔ b ≤ a := by
  rw [← Bool.not_eq_true, not_iff_comm.symm, pyStrLt_iff, not_le]

theorem pyStrLe_iff (a b : String) : pyStrLe a b = true ↔ a ≤ b := by
  rw [pyStrLe, Bool.not_eq_true', pyStrLt_eq_false_iff]

theorem pyStrLe_eq_false_iff (a b : String) : pyStrLe a b = false ↔ b < a := by
  rw [← Bool.not_eq_true, not_iff_comm.symm, pyStrLe_iff, not_lt]

/-- The empty string is the least string. -/
theorem empty_string_le (s : String) : "" ≤ s := by
  refine le_of_not_lt (fun h => ?_)
  have := (pyStrLt_iff s "").mpr h
  rw [pyStrLt, String.toList_empty, charListLt_nil] at this
  exact Bool.false_ne_true this

/-! ## Sortedness facts about the queue-maintenance helpers -/

theorem isSorted_iff (l : List String) : isSorted l = true ↔ l.Pairwise (· < ·) := by
  have chain : ∀ l : List String, isSorted l = true ↔ List.Chain' (· < ·) l := by
    intro l
    induction l with
    | nil => simp [isSorted]
    | cons a t ih =>
      cases t with
      | nil => simp [isSorted]
      | cons b t2 =>
        rw [List.chain'_cons, ← ih]
        simp [isSorted, pyStrLt_iff, Bool.and_eq_true]
  rw [chain]
  exact List.chain'_iff_pairwise

theorem pyOrderedInsert_perm (a : String) (l : List String) :
    (pyOrderedInsert a l).Perm (a :: l) := by
  induction l with
  | nil => rfl
  | cons b t ih =>
    by_cases h : pyStrLe a b = true
    · simp [pyOrderedInsert, h]
    · rw [pyOrderedInsert, if_neg h]
      exact ((ih.cons b).trans (List.Perm.swap a b t))

theorem pySorted_perm (l : List String) : (pySorted l).Perm l := by
  induction l with
  | nil => rfl
  | cons a t ih => exact (pyOrderedInsert_perm a (pySorted t)).trans (ih.cons a)

theorem mem_pyOrderedInsert {x a : String} {l : List String} :
    x ∈ pyOrderedInsert a l ↔ x = a ∨ x ∈ l := by
  rw [(pyOrderedInsert_perm a l).mem_iff, List.mem_cons]

theorem pyOrderedInsert_pairwise (a : String) {l : List String}
    (h : l.Pairwise (· ≤ ·)) : (pyOrderedInsert a l).Pairwise (· ≤ ·) := by
  induction l with
  | nil => simp [pyOrderedInsert]
  | cons b t ih =>
    rcases List.pairwise_cons.mp h with ⟨hb, ht⟩
    by_cases hab : pyStrLe a b = true
    · rw [pyOrderedInsert, if_pos hab]
      refine List.pairwise_cons.mpr ⟨?_, h⟩
      intro x hx
      rcases List.mem_cons.mp hx with rfl | hx
      · exact pyStrLe_iff a x |>.mp hab
      · exact le_trans (pyStrLe_iff a b |>.mp hab) (hb x hx)
    · rw [pyOrderedInsert, if_neg hab]
      refine List.pairwise_cons.mpr ⟨?_, ih ht⟩
      intro x hx
      rcases mem_pyOrderedInsert.mp hx with hxa | hx
      · exact hxa ▸ le_of_lt ((pyStrLe_eq_false_iff a b).mp (Bool.eq_false_iff.mpr hab))
      · exact hb x hx

theorem pySorted_pairwise (l : List String) : (pySorted l).Pairwise (· ≤ ·) := by
  induction l with
  | nil => simp [pySorted]
  | cons a t ih => exact pyOrderedInsert_pairwise a ih

theorem mem_of_mem_ujsAux {x prev : String} {l : List String} :
    x ∈ ujsAux prev l → x ∈ l := by
  induction l generalizing prev with
  | nil => simp [ujsAux]
  | cons b t ih =>
    intro hx
    rw [ujsAux] at hx
    by_cases hb : b = prev
    · rw [if_pos hb] at hx
      exact List.mem_cons_of_mem b (ih hx)
    · rw [if_neg hb] at hx
      rcases List.mem_cons.mp hx with rfl | hx
      · exact List.mem_cons_self x t
      · exact List.mem_cons_of_mem b (ih hx)

theorem mem_ujsAux_of_mem {x prev : String} {l : List String} :
    x ∈ l → x ∈ ujsAux prev l ∨ x = prev := by
  induction l generalizing prev with
  | nil => simp
  | cons b t ih =>
    intro hx
    rw [ujsAux]
    by_cases hb : b = prev
    · rw [if_pos hb]
      rcases List.mem_cons.mp hx with rfl | hx
      · exact Or.inr hb
      · exact ih hx
    · rw [if_neg hb]
      rcases List.mem_cons.mp hx with rfl | hx
      · exact Or.inl (List.mem_cons_self x _)
      · rcases @ih b hx with h | rfl
        · exact Or.inl (List.mem_cons_of_mem b h)
        · exact Or.inl (List.mem_cons_self x _)

theorem ujsAux_pairwise {prev : String} {l : List String}
    (h : l.Pairwise (· ≤ ·)) (hge : ∀ x ∈ l, prev ≤ x) :
    (ujsAux prev l).Pairwise (· < ·) ∧ ∀ x ∈ ujsAux prev l, prev < x := by
  induction l generalizing prev with
  | nil => simp [ujsAux]
  | cons b t ih =>
    rcases List.pairwise_cons.mp h with ⟨hb, ht⟩
    rw [ujsAux]
    by_cases hbp : b = prev
    · rw [if_pos hbp]
      subst hbp
      exact ih ht hb
    · rw [if_neg hbp]
      have hprevb : prev < b :=
        lt_of_le_of_ne (hge b (List.mem_cons_self b t)) (fun h => hbp h.symm)
      rcases @ih b ht hb with ⟨hpw, hgt⟩
      refine ⟨List.pairwise_cons.mpr ⟨hgt, hpw⟩, ?_⟩
      intro x hx
      rcases List.mem_cons.mp hx with rfl | hx
      · exact hprevb
      · exact lt_trans hprevb (hgt x hx)

theorem uniqueJustseen_pairwise {l : List String} (h : l.Pairwise (· ≤ ·)) :
    (uniqueJustseen l).Pairwise (· < ·) := by
  cases l with
  | nil => simp [uniqueJustseen]
  | cons a t =>
    rcases List.pairwise_cons.mp h with ⟨ha, ht⟩
    rw [uniqueJustseen]
    rcases ujsAux_pairwise ht ha with ⟨hpw, hgt⟩
    exact List.pairwise_cons.mpr ⟨hgt, hpw⟩

theorem mem_uniqueJustseen_of_mem {x : String} {l : List String} :
    x ∈ l → x ∈ uniqueJustseen l := by
  cases l with
  | nil => simp
  | cons a t =>
    intro hx
    rw [uniqueJustseen]
    rcases List.mem_cons.mp hx with rfl | hx
    · exact List.mem_cons_self x _
    · rcases @mem_ujsAux_of_mem x a t hx with h | rfl
      · exact List.mem_cons_of_mem a h
      · exact List.mem_cons_self x _

theorem mem_of_mem_uniqueJustseen {x : String} {l : List String} :
    x ∈ uniqueJustseen l → x ∈ l := by
  cases l with
  | nil => simp [uniqueJustseen]
  | cons a t =>
    intro hx
    rw [uniqueJustseen] at hx
    rcases List.mem_cons.mp hx with rfl | hx
    · exact List.mem_cons_self x _
    · exact List.mem_cons_of_mem a (mem_of_mem_ujsAux hx)

/-- Every queue coming out of the maintenance step is strictly sorted, hence
sorted ascending with no duplicates. -/
theorem sortQueue_pairwise (q : List String) : (sortQueue q).Pairwise (· < ·) := by
  rw [sortQueue]
  by_cases h : isSorted q = true
  · rw [if_pos h]
    exact (isSorted_iff q).mp h
  · rw [if_neg h]
    exact uniqueJustseen_pairwise (pySorted_pairwise q)

theorem mem_sortQueue_of_mem {x : String} {q : List String} (hx : x ∈ q) :
    x ∈ sortQueue q := by
  rw [sortQueue]
  by_cases h : isSorted q = true
  · rwa [if_pos h]
  · rw [if_neg h]
    exact mem_uniqueJustseen_of_mem ((pySorted_perm q).mem_iff.mpr hx)

theorem mem_of_mem_sortQueue {x : String} {q : List String} (hx : x ∈ sortQueue q) :
    x ∈ q := by
  rw [sortQueue] at hx
  by_cases h : isSorted q = true
  · rwa [if_pos h] at hx
  · rw [if_neg h] at hx
    exact (pySorted_perm q).mem_iff.mp (mem_of_mem_uniqueJustseen hx)

/-- In a strictly sorted list, the head is a lower bound of every element. -/
theorem sorted_head_le {q : List String} {h x : String}
    (hq : q.Pairwise (· < ·)) (hh : q.head? = some h) (hx : x ∈ q) : h ≤ x := by
  cases q with
  | nil => cases hh
  | cons a t =>
    rw [List.head?_cons, Option.some_inj] at hh
    subst hh
    rcases List.mem_cons.mp hx with rfl | hx
    · exact le_refl x
    · exact le_of_lt ((List.pairwise_cons.mp hq).1 x hx)

/-! ## Eviction of stuck mismatches (`check_and_pop_mismatches`, lines 136-145)

The inner `for` loop over all queues pops one head per queue per pass when it
is below `next_elt`; the outer `while popping` loop repeats passes until a
pass pops nothing. Each continuing pass pops at least one element, so
total-queue-length + 1 passes always suffice; the fuel argument makes this a
structural recursion. -/

/-- One pass of the eviction `for` loop: pop the head of every queue whose
head is `< next_elt`; returns the new queues, the discarded heads (the warning
log), and whether anything was popped. -/
def evictPass (nextElt : Option String) :
    List (String × List String) → List (String × List String) × List String × Bool
  | [] => ([], [], false)
  | p :: rest =>
    let step : List String × List String × Bool :=
      match p.2 with
      | h :: t => if headLtOpt h nextElt then (t, [h], true) else (p.2, [], false)
      | [] => (p.2, [], false)
    let r := evictPass nextElt rest
    ((p.1, step.1) :: r.1, step.2.1 ++ r.2.1, step.2.2 || r.2.2)

/-- The `while popping` loop around `evictPass`. -/
def evictLoopFuel (nextElt : Option String) :
    Nat → List (String × List String) → List (String × List String) × List String
  | 0, qs => (qs, [])
  | fuel + 1, qs =>
    let r := evictPass nextElt qs
    if r.2.2 then
      let r2 := evictLoopFuel nextElt fuel r.1
      (r2.1, r.2.1 ++ r2.2)
    else (r.1, r.2.1)

/-- Total number of queued keys (used as an iteration budget). -/
def sumLen (qs : List (String × List String)) : Nat :=
  (qs.map (fun p => p.2.length)).sum

/-- `next_elts = first_elts[:]; next_elts.remove(cur_mismatch);
reduce(min, next_elts)`: the minimum head after removing the first occurrence
of the current minimum. `none` models the `TypeError` of `reduce` on an empty
sequence. (Python `remove` of an element produced by `reduce(min, ...)`
always finds it, so `List.erase` coincides with it here.) -/
def nextKeyAfter (firstElts : List (Option String)) (cur : String) : Option (Option String) :=
  match firstElts.erase (some cur) with
  | [] => none
  | e :: es => some (pyFoldMin e es)

/-- Python truthiness of `self.last_mismatch` (`None` and `''` are falsy). -/
def pyTruthy : Option String → Bool
  | none => false
  | some s => s ≠ ""

/-- `check_and_pop_mismatches(first_elts)` (source lines 98-153). Returns
`(matched, new state, discarded keys)`, or the raised exception. -/
def checkAndPopMismatches (fd : SyncFeeder) (now : Int) (firstElts : List (Option String)) :
    Except String (Option String × SyncFeeder × List String) :=
  match firstElts with
  | [] => .error "IndexError: list index out of range"
  | compElt :: restElts =>
    if compElt.isSome && restElts.all (fun e => e == compElt) then
      .ok (compElt, { fd with lastMismatch := none, lastMismatchTime := none }, [])
    else
      match pyFoldMin compElt restElts with
      | none => .ok (none, { fd with lastMismatch := none, lastMismatchTime := none }, [])
      | some cur =>
        match fd.lastMismatch with
        | some lm =>
          if lm ≠ "" then
            -- `if self.last_mismatch:` is true (truthy)
            if lm ≠ cur then
              .error "Current mismatch does not equal last mismatch - this should not happen"
            else
              match fd.lastMismatchTime with
              | none => .error "TypeError: unsupported operand type"
              | some t0 =>
                if now - t0 > fd.mismatchWaitTime then
                  match nextKeyAfter (compElt :: restElts) cur with
                  | none => .error "TypeError: reduce of empty sequence with no initial value"
                  | some nextElt =>
                    let r := evictLoopFuel nextElt (sumLen fd.queues + 1) fd.queues
                    .ok (none,
                      { fd with queues := r.1, lastMismatch := none, lastMismatchTime := none },
                      r.2)
                else .ok (none, fd, [])
          else
            -- falsy `last_mismatch` (`None` or `''`): record the new mismatch
            .ok (none, { fd with lastMismatch := some cur, lastMismatchTime := some now }, [])
        | none =>
          .ok (none, { fd with lastMismatch := some cur, lastMismatchTime := some now }, [])

/-- `get_matching_first_entry` (source lines 155-168): run
`check_and_pop_mismatches` on the queue heads and pop every head on a match. -/
def getMatchingFirstEntry (fd : SyncFeeder) (now : Int) :
    Except String (Option String × SyncFeeder × List String) :=
  match checkAndPopMismatches fd now (fd.queues.map (fun p => p.2.head?)) with
  | .error e => .error e
  | .ok (some m, fd1, ds) =>
    .ok (some m, { fd1 with queues := fd1.queues.map (fun p => (p.1, p.2.tail)) }, ds)
  | .ok (none, fd1, ds) => .ok (none, fd1, ds)

/-- `check_sequence(timepoint_string)` (source lines 189-197): parse the key
as an integer (`ValueError` on failure), warn on a gap, update the cursor.
Returns the new `last_timepoint` and whether a gap warning was logged. -/
def checkSequence (lastTimepoint : Option Int) (s : String) : Except String (Option Int × Bool) :=
  match pyInt s with
  | none => .error ("ValueError: invalid literal for int with base 10: " ++ s)
  | some cur =>
    match lastTimepoint with
    | none => .ok (some cur, false)
    | some last => .ok (some cur, cur ≠ last + 1)

/-- The per-filename insertion step of `match_filenames` (source lines
206-216): skip (with a warning) when the queue name or timepoint is
unresolvable, otherwise append to the queue and record the full name.
A resolvable queue name that is not a dict key raises `KeyError`. -/
def insertOne (fd : SyncFeeder) (filename : String) : Except String SyncFeeder :=
  match fd.fnameToQname filename with
  | none => .ok fd
  | some qname =>
    match fd.fnameToTimepoint filename with
    | none => .ok fd
    | some tp =>
      match queueAppend fd.queues qname tp with
      | none => .error ("KeyError: " ++ qname)
      | some qs =>
        .ok { fd with queues := qs,
                      keysToFullnames := dictInsert fd.keysToFullnames (qname, tp) filename }

/-- The insertion `for` loop of `match_filenames`. -/
def insertAll : SyncFeeder → List String → Except String SyncFeeder
  | fd, [] => .ok fd
  | fd, f :: rest =>
    match insertOne fd f with
    | .error e => .error e
    | .ok fd1 => insertAll fd1 rest

/-- The sort-and-dedup maintenance loop of `match_filenames` (lines 219-221),
over every queue of the dict. -/
def sortPhase (qs : List (String × List String)) : List (String × List String) :=
  qs.map (fun p => (p.1, sortQueue p.2))

/-- The `if dcs: self.check_sequence(matching)` step of the matching loop
(lines 230-231): run the sequence check when enabled, updating the
`last_timepoint` cursor; a `ValueError` propagates. -/
def seqStep (fd : SyncFeeder) (m : String) : Except String SyncFeeder :=
  if fd.doCheckSequence then
    match checkSequence fd.lastTimepoint m with
    | .error e => .error e
    | .ok r => .ok { fd with lastTimepoint := r.1 }
  else .ok fd

/-- The `while matching:` loop of `match_filenames` (lines 229-233). Note
Python truthiness: a matched `''` ends the loop without being appended to
`matches`. Each iteration beyond the last pops at least one element from the
queues, so total-queue-length + 2 fuel always suffices. -/
def matchLoopFuel (now : Int) :
    Nat → SyncFeeder → Option String → Except String (SyncFeeder × List String)
  | 0, _, _ => .error "InternalFuelExhausted"
  | _ + 1, fd, none => .ok (fd, [])
  | fuel + 1, fd, some m =>
    if m = "" then .ok (fd, [])
    else
      match seqStep fd m with
      | .error e => .error e
      | .ok fd1 =>
        match getMatchingFirstEntry fd1 now with
        | .error e => .error e
        | .ok (matching2, fd2, _) =>
          match matchLoopFuel now fuel fd2 matching2 with
          | .error e => .error e
          | .ok r => .ok (r.1, m :: r.2)

/-- `itertools.product(qnames, matches)` in iteration order. -/
def listProd : List String → List String → List (String × String)
  | [], _ => []
  | q :: t, ms => ms.map (fun m => (q, m)) ++ listProd t ms

/-- `[self.keys_to_fullnames.pop(key) for key in fullnamekeys]` (line 237);
a missing key raises `KeyError`. -/
def popAll : SyncFeeder → List (String × String) → Except String (SyncFeeder × List String)
  | fd, [] => .ok (fd, [])
  | fd, k :: rest =>
    match dictPop fd.keysToFullnames k with
    | none => .error "KeyError: key pair not in keys_to_fullnames"
    | some r =>
      match popAll { fd with keysToFullnames := r.2 } rest with
      | .error e => .error e
      | .ok r2 => .ok (r2.1, r.1 :: r2.2)

/-! ## Size-mismatch filtering (`filter_size_mismatch_files`, lines 170-187) -/

/-- The scanning loop of `filter_size_mismatch_files`: thread the
`qname_to_expected_size` dict through `setdefault` and collect the timepoints
of the files whose size deviates from their stream baseline, in order. -/
def sizePass (qf tf : String → Option String) (sizeOf : String → Int) :
    List (Option String × Int) → List String → List (Option String × Int) × List (Option String)
  | exp, [] => (exp, [])
  | exp, f :: rest =>
    let bname := pyBasename f
    let size := sizeOf f
    let r := sizeSetdefault exp (qf bname) size
    let r2 := sizePass qf tf sizeOf r.2 rest
    if size ≠ r.1 then (r2.1, tf bname :: r2.2) else (r2.1, r2.2)

/-- `filter_size_mismatch_files(filenames)`: returns the updated expected-size
dict and the filenames whose timepoint was not marked suspect (the input list
unchanged when nothing was flagged). -/
def filterSizeMismatchFiles (qf tf : String → Option String) (sizeOf : String → Int)
    (exp : List (Option String × Int)) (filenames : List String) :
    List (Option String × Int) × List String :=
  let r := sizePass qf tf sizeOf exp filenames
  (r.1,
    if r.2.isEmpty then filenames
    else filenames.filter (fun f => decide (tf (pyBasename f) ∉ r.2)))

/-! ## `match_filenames` (source lines 199-246) -/

/-- `match_filenames(filenames)`: insert the batch, restore queue sorting,
repeatedly extract matched heads (with eviction of stuck mismatches inside
`check_and_pop_mismatches`), convert matches back to full filenames, sort
them, and optionally filter size mismatches. `now` is the value of
`time.time()` during the call and `sizeOf` is the `os.path.getsize` oracle. -/
def matchFilenames (fd : SyncFeeder) (now : Int) (sizeOf : String → Int)
    (filenames : List String) : Except String (SyncFeeder × List String) :=
  match insertAll fd filenames with
  | .error e => .error e
  | .ok fd1 =>
    match getMatchingFirstEntry { fd1 with queues := sortPhase fd1.queues } now with
    | .error e => .error e
    | .ok (matching, fd3, _) =>
      match matchLoopFuel now (sumLen fd3.queues + 2) fd3 matching with
      | .error e => .error e
      | .ok (fd4, ms) =>
        match popAll fd4 (listProd (fd4.queues.map (fun p => p.1)) ms) with
        | .error e => .error e
        | .ok (fd5, fullnames) =>
          match fd5.qnameToExpectedSize with
          | none => .ok (fd5, pySorted fullnames)
          | some exp =>
            .ok ({ fd5 with
                    qnameToExpectedSize := some (filterSizeMismatchFiles fd5.fnameToQname
                      fd5.fnameToTimepoint sizeOf exp (pySorted fullnames)).1 },
                 (filterSizeMismatchFiles fd5.fnameToQname fd5.fnameToTimepoint
                   sizeOf exp (pySorted fullnames)).2)

/-- A `match_filenames` call with a size oracle that is irrelevant because the
size filter is disabled. -/
def runMatch (fd : SyncFeeder) (now : Int) (batch : List String) :
    Except String (SyncFeeder × List String) :=
  matchFilenames fd now (fun _ => 0) batch

/-- The feeder state after a successful `runMatch` call (the state itself on
an exception; used only on calls that are proved to succeed). -/
def stateAfter (fd : SyncFeeder) (now : Int) (batch : List String) : SyncFeeder :=
  match runMatch fd now batch with
  | .ok r => r.1
  | .error _ => fd

/-- Feeder states reachable from a freshly constructed feeder by successful
`match_filenames` calls (with arbitrary clock values, size oracles and input
batches). -/
inductive Reachable : SyncFeeder → Prop
  | init (qnames : List String) (fq ft : String → Option String) (cs cq : Bool) :
      Reachable (mkSyncFeeder qnames fq ft cs cq)
  | step {fd fd' : SyncFeeder} (now : Int) (sizeOf : String → Int)
      (batch : List String) (res : List String) :
      Reachable fd → matchFilenames fd now sizeOf batch = .ok (fd', res) → Reachable fd'

/-! ## Facts about `pyFoldMin` -/

theorem pyMin_eq_or (a b : Option String) : pyMin a b = a ∨ pyMin a b = b := by
  match a, b with
  | none, _ => exact Or.inl rfl
  | some x, none => exact Or.inr rfl
  | some x, some y =>
    rw [pyMin]
    by_cases h : pyStrLe x y = true
    · rw [if_pos h]; exact Or.inl rfl
    · rw [if_neg h]; exact Or.inr rfl

theorem pyFoldMin_mem (l : List (Option String)) (a : Option String) :
    pyFoldMin a l = a ∨ pyFoldMin a l ∈ l := by
  induction l generalizing a with
  | nil => exact Or.inl rfl
  | cons b t ih =>
    rw [pyFoldMin, List.foldl_cons]
    rcases ih (pyMin a b) with h | h
    · rw [pyFoldMin] at h
      rw [h]
      rcases pyMin_eq_or a b with h2 | h2
      · exact Or.inl h2
      · exact Or.inr (by rw [h2]; exact List.mem_cons_self b t)
    · exact Or.inr (List.mem_cons_of_mem b h)

theorem pyFoldMin_none (l : List (Option String)) : pyFoldMin none l = none := by
  induction l with
  | nil => rfl
  | cons b t ih => rw [pyFoldMin, List.foldl_cons]; exact ih

theorem pyMin_some_le {x m : String} {b : Option String}
    (h : pyMin (some x) b = some m) : m ≤ x ∧ ∀ y, b = some y → m ≤ y := by
  match b with
  | none => cases h
  | some y =>
    rw [pyMin] at h
    by_cases hc : pyStrLe x y = true
    · rw [if_pos hc] at h
      have hxm := Option.some_inj.mp h
      subst hxm
      refine ⟨le_refl _, fun z hz => ?_⟩
      have hyz := Option.some_inj.mp hz
      subst hyz
      exact (pyStrLe_iff x y).mp hc
    · rw [if_neg hc] at h
      have hym := Option.some_inj.mp h
      subst hym
      refine ⟨le_of_lt ((pyStrLe_eq_false_iff x y).mp (Bool.eq_false_iff.mpr hc)),
        fun z hz => ?_⟩
      have hyz := Option.some_inj.mp hz
      subst hyz
      exact le_refl _

theorem pyFoldMin_le {l : List (Option String)} {a : Option String} {m : String}
    (h : pyFoldMin a l = some m) :
    (∀ x, a = some x → m ≤ x) ∧ ∀ x, some x ∈ l → m ≤ x := by
  induction l generalizing a with
  | nil =>
    refine ⟨fun x hx => ?_, fun x hx => absurd hx (List.not_mem_nil _)⟩
    rw [pyFoldMin] at h
    simp only [List.foldl_nil] at h
    rw [hx] at h
    cases h
    exact le_refl m
  | cons b t ih =>
    rw [pyFoldMin, List.foldl_cons] at h
    have h' : pyFoldMin (pyMin a b) t = some m := h
    have hab : pyMin a b ≠ none := by
      intro hn
      rw [hn, pyFoldMin_none] at h'
      cases h'
    rcases Option.ne_none_iff_exists'.mp hab with ⟨m', hm'⟩
    rcases ih h' with ⟨ih1, ih2⟩
    have hmm' : m ≤ m' := ih1 m' hm'
    constructor
    · intro x hx
      subst hx
      rcases pyMin_some_le (hm' ▸ rfl : pyMin (some x) b = some m') with ⟨h1, _⟩
      exact le_trans hmm' h1
    · intro x hx
      rcases List.mem_cons.mp hx with hxb | hxt
      · subst hxb
        match a, hab with
        | some z, _ =>
          rcases pyMin_some_le (hm' ▸ rfl : pyMin (some z) (some x) = some m') with ⟨_, h2⟩
          exact le_trans hmm' (h2 x rfl)
        | none, hab => exact absurd rfl hab
      · exact ih2 x hxt

/-! ## Facts about the eviction loop -/

theorem mem_evictPass_discards {nextElt : Option String}
    {qs : List (String × List String)} {k : String}
    (hk : k ∈ (evictPass nextElt qs).2.1) : headLtOpt k nextElt = true := by
  induction qs with
  | nil => cases hk
  | cons p rest ih =>
    rw [evictPass] at hk
    rcases List.mem_append.mp hk with h | h
    · match p, h with
      | (qn, h0 :: t), h =>
        by_cases hlt : headLtOpt h0 nextElt = true
        · simp only [hlt, if_pos] at h
          rcases List.mem_singleton.mp h with rfl
          exact hlt
        · simp only [Bool.not_eq_true] at hlt
          simp [hlt] at h
      | (qn, []), h => cases h
    · exact ih h

theorem mem_evictLoopFuel_discards {nextElt : Option String} {fuel : Nat}
    {qs : List (String × List String)} {k : String}
    (hk : k ∈ (evictLoopFuel nextElt fuel qs).2) : headLtOpt k nextElt = true := by
  induction fuel generalizing qs with
  | zero => cases hk
  | succ n ih =>
    rw [evictLoopFuel] at hk
    by_cases hp : (evictPass nextElt qs).2.2 = true
    · rw [if_pos hp] at hk
      rcases List.mem_append.mp hk with h | h
      · exact mem_evictPass_discards h
      · exact ih h
    · rw [if_neg hp] at hk
      exact mem_evictPass_discards hk

/-! ## Pointwise queue evolution

Inside a `match_filenames` call, after the sort-and-dedup step the queues
only ever lose elements from the front: a matched head is popped from every
queue and the eviction loop pops heads. `QueuesSuffix qs' qs` captures this:
the queue names are unchanged and every queue in `qs'` is a suffix of the
corresponding queue in `qs`. -/

def QueuesSuffix (qs' qs : List (String × List String)) : Prop :=
  List.Forall₂ (fun p' p => p'.1 = p.1 ∧ p'.2.IsSuffix p.2) qs' qs

theorem QueuesSuffix.refl (qs : List (String × List String)) : QueuesSuffix qs qs := by
  induction qs with
  | nil => exact List.Forall₂.nil
  | cons p t ih => exact List.Forall₂.cons ⟨rfl, List.suffix_refl p.2⟩ ih

theorem QueuesSuffix.trans {qs1 qs2 qs3 : List (String × List String)}
    (h12 : QueuesSuffix qs1 qs2) (h23 : QueuesSuffix qs2 qs3) : QueuesSuffix qs1 qs3 := by
  induction h23 generalizing qs1 with
  | nil => cases h12; exact List.Forall₂.nil
  | cons h2 _ ih =>
    cases h12 with
    | cons h1 t1 =>
      exact List.Forall₂.cons ⟨h1.1.trans h2.1, h1.2.trans h2.2⟩ (ih t1)

theorem QueuesSuffix.mem {qs' qs : List (String × List String)}
    (h : QueuesSuffix qs' qs) {p' : String × List String} (hp : p' ∈ qs') :
    ∃ p ∈ qs, p'.1 = p.1 ∧ p'.2.IsSuffix p.2 := by
  induction h with
  | nil => cases hp
  | cons h1 _ ih =>
    rcases List.mem_cons.mp hp with rfl | hp'
    · exact ⟨_, List.mem_cons_self _ _, h1⟩
    · rcases ih hp' with ⟨p, hmem, hrel⟩
      exact ⟨p, List.mem_cons_of_mem _ hmem, hrel⟩

theorem queuesSuffix_mapTail (qs : List (String × List String)) :
    QueuesSuffix (qs.map (fun p => (p.1, p.2.tail))) qs := by
  induction qs with
  | nil => exact List.Forall₂.nil
  | cons p t ih => exact List.Forall₂.cons ⟨rfl, List.tail_suffix p.2⟩ ih

theorem evictPass_suffix (nextElt : Option String) (qs : List (String × List String)) :
    QueuesSuffix (evictPass nextElt qs).1 qs := by
  induction qs with
  | nil => exact List.Forall₂.nil
  | cons p rest ih =>
    rw [evictPass]
    refine List.Forall₂.cons ⟨rfl, ?_⟩ ih
    match p with
    | (qn, []) => exact List.suffix_refl _
    | (qn, h0 :: t) =>
      by_cases hlt : headLtOpt h0 nextElt = true
      · simp only [hlt, if_pos]
        exact ⟨[h0], rfl⟩
      · simp only [Bool.not_eq_true] at hlt
        simp only [hlt, Bool.false_eq_true, if_neg, not_false_iff]
        exact List.suffix_refl _

theorem evictLoopFuel_suffix (nextElt : Option String) (fuel : Nat)
    (qs : List (String × List String)) :
    QueuesSuffix (evictLoopFuel nextElt fuel qs).1 qs := by
  induction fuel generalizing qs with
  | zero => exact QueuesSuffix.refl qs
  | succ n ih =>
    rw [evictLoopFuel]
    by_cases hp : (evictPass nextElt qs).2.2 = true
    · rw [if_pos hp]
      exact (ih _).trans (evictPass_suffix nextElt qs)
    · rw [if_neg hp]
      exact evictPass_suffix nextElt qs

/-! ## Characterization of `check_and_pop_mismatches` -/

/-- A successful `check_and_pop_mismatches` call never touches the filename
index, the extractor functions, the configuration or the sequence cursor, and
its queues are pointwise suffixes of the previous ones. -/
theorem cpm_ok_fields {fd : SyncFeeder} {now : Int} {elts : List (Option String)}
    {m : Option String} {fd' : SyncFeeder} {ds : List String}
    (h : checkAndPopMismatches fd now elts = .ok (m, fd', ds)) :
    fd'.keysToFullnames = fd.keysToFullnames ∧
    fd'.fnameToQname = fd.fnameToQname ∧
    fd'.fnameToTimepoint = fd.fnameToTimepoint ∧
    fd'.qnameToExpectedSize = fd.qnameToExpectedSize ∧
    fd'.doCheckSequence = fd.doCheckSequence ∧
    fd'.lastTimepoint = fd.lastTimepoint ∧
    fd'.mismatchWaitTime = fd.mismatchWaitTime ∧
    QueuesSuffix fd'.queues fd.queues := by
  match elts with
  | [] => cases h
  | compElt :: restElts =>
    rw [checkAndPopMismatches] at h
    repeat' split at h
    all_goals
      first
      | (simp only [Except.ok.injEq, Prod.mk.injEq] at h
         obtain ⟨h1, h2, h3⟩ := h
         subst h2
         refine ⟨rfl, rfl, rfl, rfl, rfl, rfl, rfl, ?_⟩
         first
         | exact QueuesSuffix.refl _
         | exact evictLoopFuel_suffix _ _ _)
      | cases h

/-- A matched head: the branch that returns a non-`None` value clears the
mismatch state, touches nothing else, and requires every queue head to equal
the matched value. -/
theorem cpm_matched {fd : SyncFeeder} {now : Int} {elts : List (Option String)}
    {m0 : String} {fd' : SyncFeeder} {ds : List String}
    (h : checkAndPopMismatches fd now elts = .ok (some m0, fd', ds)) :
    fd' = { fd with lastMismatch := none, lastMismatchTime := none } ∧
    ds = [] ∧ ∀ y ∈ elts, y = some m0 := by
  match elts with
  | [] => cases h
  | compElt :: restElts =>
    rw [checkAndPopMismatches] at h
    repeat' split at h
    all_goals
      first
      | (simp only [Except.ok.injEq, Prod.mk.injEq] at h
         obtain ⟨h1, h2, h3⟩ := h
         first
         | exact Option.noConfusion h1
         | (subst h1
            subst h2
            rename_i hcond
            rw [Bool.and_eq_true, List.all_eq_true] at hcond
            refine ⟨rfl, h3.symm, ?_⟩
            intro y hy
            rcases List.mem_cons.mp hy with rfl | hy
            · rfl
            · have hb := hcond.2 y hy
              rwa [beq_iff_eq] at hb))
      | cases h

/-- When a successful call leaves a recorded mismatch, either this call
recorded it (the key is the minimum of the heads and the queues are
untouched), or the state is entirely unchanged and the previously recorded
key was truthy. -/
theorem cpm_lastMismatch_some {fd : SyncFeeder} {now : Int} {elts : List (Option String)}
    {m : Option String} {fd' : SyncFeeder} {ds : List String} {s : String}
    (h : checkAndPopMismatches fd now elts = .ok (m, fd', ds))
    (hs : fd'.lastMismatch = some s) :
    (∃ e rest, elts = e :: rest ∧ pyFoldMin e rest = some s ∧ fd'.queues = fd.queues ∧
      fd'.lastMismatchTime = some now) ∨
    (fd' = fd ∧ pyTruthy fd.lastMismatch = true) := by
  match elts with
  | [] => cases h
  | compElt :: restElts =>
    rw [checkAndPopMismatches] at h
    split at h
    · -- matched: mismatch state cleared
      simp only [Except.ok.injEq, Prod.mk.injEq] at h
      obtain ⟨-, h2, -⟩ := h
      subst h2
      exact Option.noConfusion hs
    · split at h
      · -- some queue empty: mismatch state cleared
        simp only [Except.ok.injEq, Prod.mk.injEq] at h
        obtain ⟨-, h2, -⟩ := h
        subst h2
        exact Option.noConfusion hs
      · rename_i cur hmin
        split at h
        · rename_i lm hlm
          split at h
          · -- truthy recorded key
            rename_i hlmne
            split at h
            · cases h
            · split at h
              · cases h
              · rename_i t0 ht0
                split at h
                · -- eviction: mismatch state cleared
                  split at h
                  · cases h
                  · simp only [Except.ok.injEq, Prod.mk.injEq] at h
                    obtain ⟨-, h2, -⟩ := h
                    subst h2
                    exact Option.noConfusion hs
                · -- still within the grace period: state unchanged
                  simp only [Except.ok.injEq, Prod.mk.injEq] at h
                  obtain ⟨-, h2, -⟩ := h
                  subst h2
                  refine Or.inr ⟨rfl, ?_⟩
                  rw [hlm, pyTruthy]
                  exact decide_eq_true hlmne
          · -- falsy recorded key: record the new mismatch
            simp only [Except.ok.injEq, Prod.mk.injEq] at h
            obtain ⟨-, h2, -⟩ := h
            subst h2
            have hcs : cur = s := Option.some_inj.mp hs
            subst hcs
            exact Or.inl ⟨compElt, restElts, rfl, hmin, rfl, rfl⟩
        · -- no recorded mismatch: record the new one
          simp only [Except.ok.injEq, Prod.mk.injEq] at h
          obtain ⟨-, h2, -⟩ := h
          subst h2
          have hcs : cur = s := Option.some_inj.mp hs
          subst hcs
          exact Or.inl ⟨compElt, restElts, rfl, hmin, rfl, rfl⟩

/-! ## Characterization of `get_matching_first_entry` and the matching loop -/

/-- `get_matching_first_entry` never touches the filename index, configuration
or sequence cursor, and only pops from the queues. -/
theorem gmfe_ok_fields {fd : SyncFeeder} {now : Int} {m : Option String}
    {fd' : SyncFeeder} {ds : List String}
    (h : getMatchingFirstEntry fd now = .ok (m, fd', ds)) :
    fd'.keysToFullnames = fd.keysToFullnames ∧
    fd'.fnameToQname = fd.fnameToQname ∧
    fd'.fnameToTimepoint = fd.fnameToTimepoint ∧
    fd'.qnameToExpectedSize = fd.qnameToExpectedSize ∧
    fd'.doCheckSequence = fd.doCheckSequence ∧
    fd'.lastTimepoint = fd.lastTimepoint ∧
    fd'.mismatchWaitTime = fd.mismatchWaitTime ∧
    QueuesSuffix fd'.queues fd.queues := by
  rw [getMatchingFirstEntry] at h
  split at h
  · cases h
  · rename_i m0 fd1 ds0 heq
    simp only [Except.ok.injEq, Prod.mk.injEq] at h
    obtain ⟨h1, h2, h3⟩ := h
    subst h2
    obtain ⟨k1, k2, k3, k4, k5, k6, k7, k8⟩ := cpm_ok_fields heq
    exact ⟨k1, k2, k3, k4, k5, k6, k7, (queuesSuffix_mapTail fd1.queues).trans k8⟩
  · rename_i fd1 ds0 heq
    simp only [Except.ok.injEq, Prod.mk.injEq] at h
    obtain ⟨h1, h2, h3⟩ := h
    subst h2
    exact cpm_ok_fields heq

/-- A matched head `m0`: every queue of the pre-state had head `m0`, the
post-state queues are the tails, the mismatch state is cleared, and nothing
else changes. -/
theorem gmfe_some {fd : SyncFeeder} {now : Int} {m0 : String} {fd' : SyncFeeder}
    {ds : List String} (h : getMatchingFirstEntry fd now = .ok (some m0, fd', ds)) :
    fd'.queues = fd.queues.map (fun p => (p.1, p.2.tail)) ∧
    fd'.lastMismatch = none ∧
    (∀ p ∈ fd.queues, p.2.head? = some m0) := by
  rw [getMatchingFirstEntry] at h
  split at h
  · cases h
  · rename_i m1 fd1 ds0 heq
    simp only [Except.ok.injEq, Prod.mk.injEq] at h
    obtain ⟨h1, h2, h3⟩ := h
    have hm := Option.some_inj.mp h1
    subst hm
    subst h2
    obtain ⟨hfd1, hds, hall⟩ := cpm_matched heq
    subst hfd1
    refine ⟨rfl, rfl, ?_⟩
    intro p hp
    exact hall _ (List.mem_map_of_mem (fun p => p.2.head?) hp)
  · rename_i fd1 ds0 heq
    simp only [Except.ok.injEq, Prod.mk.injEq] at h
    obtain ⟨h1, h2, h3⟩ := h
    exact Option.noConfusion h1

/-- The key invariant used for claim C6: whenever the recorded mismatch key is
the empty string, some queue actually holds the empty-string key. -/
def MismatchKeyQueued (fd : SyncFeeder) : Prop :=
  fd.lastMismatch = some "" → ∃ p ∈ fd.queues, "" ∈ p.2

theorem gmfe_mismatchKeyQueued {fd : SyncFeeder} {now : Int} {m : Option String}
    {fd' : SyncFeeder} {ds : List String}
    (h : getMatchingFirstEntry fd now = .ok (m, fd', ds)) : MismatchKeyQueued fd' := by
  rw [getMatchingFirstEntry] at h
  split at h
  · cases h
  · rename_i m0 fd1 ds0 heq
    simp only [Except.ok.injEq, Prod.mk.injEq] at h
    obtain ⟨h1, h2, h3⟩ := h
    subst h2
    obtain ⟨hfd1, -, -⟩ := cpm_matched heq
    subst hfd1
    intro hs
    exact Option.noConfusion hs
  · rename_i fd1 ds0 heq
    simp only [Except.ok.injEq, Prod.mk.injEq] at h
    obtain ⟨h1, h2, h3⟩ := h
    subst h2
    intro hs
    rcases cpm_lastMismatch_some heq hs with ⟨e, rest, helts, hmin, hq, -⟩ | ⟨hfd, htr⟩
    · have hmem : some "" ∈ (e :: rest) := by
        rcases pyFoldMin_mem rest e with hh | hh
        · rw [hh.symm.trans hmin]
          exact List.mem_cons_self _ _
        · rw [hmin] at hh
          exact List.mem_cons_of_mem e hh
      rw [← helts] at hmem
      rcases List.mem_map.mp hmem with ⟨p, hp, hph⟩
      refine ⟨p, by rw [hq]; exact hp, ?_⟩
      exact List.mem_of_mem_head? (Option.mem_def.mpr hph)
    · rw [hfd] at hs
      rw [hs, pyTruthy] at htr
      simp at htr

/-- `seqStep` only moves the sequence cursor. -/
theorem seqStep_ok {fd : SyncFeeder} {m : String} {fd1 : SyncFeeder}
    (h : seqStep fd m = .ok fd1) :
    fd1.queues = fd.queues ∧
    fd1.keysToFullnames = fd.keysToFullnames ∧
    fd1.fnameToQname = fd.fnameToQname ∧
    fd1.fnameToTimepoint = fd.fnameToTimepoint ∧
    fd1.qnameToExpectedSize = fd.qnameToExpectedSize ∧
    fd1.doCheckSequence = fd.doCheckSequence ∧
    fd1.lastMismatch = fd.lastMismatch ∧
    fd1.lastMismatchTime = fd.lastMismatchTime ∧
    fd1.mismatchWaitTime = fd.mismatchWaitTime := by
  rw [seqStep] at h
  split at h
  · split at h
    · cases h
    · have h1 := Except.ok.inj h
      subst h1
      exact ⟨rfl, rfl, rfl, rfl, rfl, rfl, rfl, rfl, rfl⟩
  · have h1 := Except.ok.inj h
    subst h1
    exact ⟨rfl, rfl, rfl, rfl, rfl, rfl, rfl, rfl, rfl⟩

theorem queuesSuffix_pairwise {qs' qs : List (String × List String)}
    (h : QueuesSuffix qs' qs) (hs : ∀ p ∈ qs, p.2.Pairwise (· < ·)) :
    ∀ p ∈ qs', p.2.Pairwise (· < ·) := by
  intro p' hp'
  rcases h.mem hp' with ⟨p, hp, -, hsuf⟩
  exact (hs p hp).sublist hsuf.sublist

theorem queuesSuffix_elem {qs' qs : List (String × List String)}
    (h : QueuesSuffix qs' qs) {p' : String × List String} (hp : p' ∈ qs')
    {e : String} (he : e ∈ p'.2) : ∃ p ∈ qs, e ∈ p.2 := by
  rcases h.mem hp with ⟨p, hpmem, -, hsuf⟩
  exact ⟨p, hpmem, hsuf.subset he⟩

/-- The matching loop never touches the filename index, the extractors or the
configuration, and only pops from the queues. -/
theorem matchLoopFuel_ok_fields {now : Int} {fuel : Nat} {fd : SyncFeeder}
    {matching : Option String} {fd' : SyncFeeder} {ms : List String}
    (h : matchLoopFuel now fuel fd matching = .ok (fd', ms)) :
    fd'.keysToFullnames = fd.keysToFullnames ∧
    fd'.fnameToQname = fd.fnameToQname ∧
    fd'.fnameToTimepoint = fd.fnameToTimepoint ∧
    fd'.qnameToExpectedSize = fd.qnameToExpectedSize ∧
    fd'.doCheckSequence = fd.doCheckSequence ∧
    fd'.mismatchWaitTime = fd.mismatchWaitTime ∧
    QueuesSuffix fd'.queues fd.queues := by
  induction fuel generalizing fd matching fd' ms with
  | zero => cases h
  | succ n ih =>
    match matching with
    | none =>
      simp only [matchLoopFuel, Except.ok.injEq, Prod.mk.injEq] at h
      obtain ⟨h1, h2⟩ := h
      subst h1
      exact ⟨rfl, rfl, rfl, rfl, rfl, rfl, QueuesSuffix.refl _⟩
    | some m =>
      rw [matchLoopFuel] at h
      split at h
      · simp only [Except.ok.injEq, Prod.mk.injEq] at h
        obtain ⟨h1, h2⟩ := h
        subst h1
        exact ⟨rfl, rfl, rfl, rfl, rfl, rfl, QueuesSuffix.refl _⟩
      · split at h
        · cases h
        · rename_i fd1 hseq
          split at h
          · cases h
          · rename_i m2 fd2 ds2 hgm
            split at h
            · cases h
            · rename_i r hrec
              simp only [Except.ok.injEq, Prod.mk.injEq] at h
              obtain ⟨h1, h2⟩ := h
              subst h1
              obtain ⟨s1, s2, s3, s4, s5, s6, s7, s8, s9⟩ := seqStep_ok hseq
              obtain ⟨g1, g2, g3, g4, g5, g6, g7, g8⟩ := gmfe_ok_fields hgm
              obtain ⟨i1, i2, i3, i4, i5, i6, i7⟩ :=
                ih (show matchLoopFuel now n fd2 m2 = .ok (r.1, r.2) from hrec)
              refine ⟨i1.trans (g1.trans s2), i2.trans (g2.trans s3),
                i3.trans (g3.trans s4), i4.trans (g4.trans s5),
                i5.trans (g5.trans s6), i6.trans (g7.trans s9), ?_⟩
              exact i7.trans (s1 ▸ g8)

/-- The matching loop preserves the empty-string-mismatch invariant. -/
theorem matchLoopFuel_mismatchKeyQueued {now : Int} {fuel : Nat} {fd : SyncFeeder}
    {matching : Option String} {fd' : SyncFeeder} {ms : List String}
    (h : matchLoopFuel now fuel fd matching = .ok (fd', ms))
    (hK : MismatchKeyQueued fd) : MismatchKeyQueued fd' := by
  induction fuel generalizing fd matching fd' ms with
  | zero => cases h
  | succ n ih =>
    match matching with
    | none =>
      simp only [matchLoopFuel, Except.ok.injEq, Prod.mk.injEq] at h
      obtain ⟨h1, h2⟩ := h
      subst h1
      exact hK
    | some m =>
      rw [matchLoopFuel] at h
      split at h
      · simp only [Except.ok.injEq, Prod.mk.injEq] at h
        obtain ⟨h1, h2⟩ := h
        subst h1
        exact hK
      · split at h
        · cases h
        · rename_i fd1 hseq
          split at h
          · cases h
          · rename_i m2 fd2 ds2 hgm
            split at h
            · cases h
            · rename_i r hrec
              simp only [Except.ok.injEq, Prod.mk.injEq] at h
              obtain ⟨h1, h2⟩ := h
              subst h1
              exact ih (show matchLoopFuel now n fd2 m2 = .ok (r.1, r.2) from hrec)
                (gmfe_mismatchKeyQueued hgm)

/-- Keys returned by the matching loop are strictly below every element left
in the final queues: once a key is matched and popped, strict sortedness
keeps it out of every queue for the rest of the call. -/
theorem matchLoopFuel_notin {now : Int} {fuel : Nat} {fd : SyncFeeder}
    {matching : Option String} {fd' : SyncFeeder} {ms : List String}
    (h : matchLoopFuel now fuel fd matching = .ok (fd', ms))
    (hsorted : ∀ p ∈ fd.queues, p.2.Pairwise (· < ·))
    (hgt : ∀ x, matching = some x → ∀ p ∈ fd.queues, ∀ e ∈ p.2, x < e) :
    ∀ y ∈ ms, ∀ p ∈ fd'.queues, y ∉ p.2 := by
  induction fuel generalizing fd matching fd' ms with
  | zero => cases h
  | succ n ih =>
    match matching with
    | none =>
      simp only [matchLoopFuel, Except.ok.injEq, Prod.mk.injEq] at h
      obtain ⟨h1, h2⟩ := h
      subst h2
      intro y hy
      cases hy
    | some m =>
      rw [matchLoopFuel] at h
      split at h
      · simp only [Except.ok.injEq, Prod.mk.injEq] at h
        obtain ⟨h1, h2⟩ := h
        subst h2
        intro y hy
        cases hy
      · split at h
        · cases h
        · rename_i fd1 hseq
          split at h
          · cases h
          · rename_i m2 fd2 ds2 hgm
            split at h
            · cases h
            · rename_i r hrec
              simp only [Except.ok.injEq, Prod.mk.injEq] at h
              obtain ⟨h1, h2⟩ := h
              subst h1
              subst h2
              obtain ⟨s1, -, -, -, -, -, -, -, -⟩ := seqStep_ok hseq
              have hsorted1 : ∀ p ∈ fd1.queues, p.2.Pairwise (· < ·) := by
                rw [s1]; exact hsorted
              have hgt1 : ∀ x, (some m : Option String) = some x →
                  ∀ p ∈ fd1.queues, ∀ e ∈ p.2, x < e := by
                rw [s1]; exact hgt
              obtain ⟨-, -, -, -, -, -, -, g8⟩ := gmfe_ok_fields hgm
              have hsorted2 : ∀ p ∈ fd2.queues, p.2.Pairwise (· < ·) :=
                queuesSuffix_pairwise g8 hsorted1
              have hgt2 : ∀ x, m2 = some x → ∀ p ∈ fd2.queues, ∀ e ∈ p.2, x < e := by
                intro x hx
                subst hx
                obtain ⟨hq2, -, hheads⟩ := gmfe_some hgm
                intro p hp e he
                rw [hq2] at hp
                rcases List.mem_map.mp hp with ⟨q, hq, hqp⟩
                have hhead := hheads q hq
                match hq2 : q.2, hhead, he with
                | a :: t, hhead, he =>
                  have ha : a = x := Option.some_inj.mp (by rw [← List.head?_cons]; exact hhead)
                  subst ha
                  have hqsorted := hsorted1 q hq
                  rw [hq2] at hqsorted
                  have : p.2 = t := by rw [← hqp]; simp [hq2]
                  rw [this] at he
                  exact (List.pairwise_cons.mp hqsorted).1 e he
              intro y hy p' hp'
              rcases List.mem_cons.mp hy with rfl | hy
              · -- the key matched in this iteration
                obtain ⟨-, -, -, -, -, -, l7⟩ :=
                  matchLoopFuel_ok_fields
                    (show matchLoopFuel now n fd2 m2 = .ok (r.1, r.2) from hrec)
                intro hmem
                have hs1q : QueuesSuffix fd1.queues fd.queues := by
                  rw [s1]; exact QueuesSuffix.refl _
                rcases queuesSuffix_elem (l7.trans (g8.trans hs1q))
                  hp' hmem with ⟨p, hp, hyp⟩
                exact lt_irrefl y (hgt y rfl p hp y hyp)
              · exact ih (show matchLoopFuel now n fd2 m2 = .ok (r.1, r.2) from hrec)
                  hsorted2 hgt2 y hy p' hp'

/-! ## Dictionary and insertion lemmas -/

theorem dictLookup_dictInsert_self (d : List ((String × String) × String))
    (k : String × String) (v : String) : dictLookup (dictInsert d k v) k = some v := by
  induction d with
  | nil => simp [dictInsert, dictLookup]
  | cons p t ih =>
    rw [dictInsert]
    by_cases hpk : p.1 = k
    · rw [if_pos hpk, dictLookup, if_pos rfl]
    · rw [if_neg hpk, dictLookup, if_neg hpk]
      exact ih

theorem dictLookup_dictInsert_ne {d : List ((String × String) × String)}
    {k k' : String × String} (v : String) (hne : k' ≠ k) :
    dictLookup (dictInsert d k v) k' = dictLookup d k' := by
  induction d with
  | nil =>
    show (if k = k' then some v else dictLookup [] k') = dictLookup [] k'
    rw [if_neg (fun hh : k = k' => hne hh.symm)]
  | cons p t ih =>
    by_cases hpk : p.1 = k
    · show dictLookup (if p.1 = k then (k, v) :: t else p :: dictInsert t k v) k' = _
      rw [if_pos hpk]
      show (if k = k' then some v else dictLookup t k') = dictLookup (p :: t) k'
      rw [if_neg (fun hh : k = k' => hne hh.symm)]
      show dictLookup t k' = if p.1 = k' then some p.2 else dictLookup t k'
      rw [if_neg (fun hh : p.1 = k' => hne (hh ▸ hpk))]
    · show dictLookup (if p.1 = k then (k, v) :: t else p :: dictInsert t k v) k' = _
      rw [if_neg hpk]
      show (if p.1 = k' then some p.2 else dictLookup (dictInsert t k v) k') =
        if p.1 = k' then some p.2 else dictLookup t k'
      by_cases hpk' : p.1 = k'
      · rw [if_pos hpk', if_pos hpk']
      · rw [if_neg hpk', if_neg hpk', ih]

theorem dictPop_lookup_ne {d : List ((String × String) × String)} {k : String × String}
    {v : String} {d' : List ((String × String) × String)}
    (h : dictPop d k = some (v, d')) {k' : String × String} (hne : k' ≠ k) :
    dictLookup d' k' = dictLookup d k' := by
  induction d generalizing v d' with
  | nil => cases h
  | cons p t ih =>
    rw [dictPop] at h
    by_cases hpk : p.1 = k
    · rw [if_pos hpk] at h
      have h2 := Option.some_inj.mp h
      have ht : t = d' := congrArg Prod.snd h2
      subst ht
      show dictLookup t k' = if p.1 = k' then some p.2 else dictLookup t k'
      rw [if_neg (fun hh : p.1 = k' => hne (hh ▸ hpk))]
    · rw [if_neg hpk] at h
      match hh : dictPop t k with
      | none => rw [hh] at h; cases h
      | some r =>
        rw [hh] at h
        have h2 := Option.some_inj.mp h
        have hd' : p :: r.2 = d' := congrArg Prod.snd h2
        subst hd'
        show (if p.1 = k' then some p.2 else dictLookup r.2 k') =
          if p.1 = k' then some p.2 else dictLookup t k'
        by_cases hpk' : p.1 = k'
        · rw [if_pos hpk', if_pos hpk']
        · rw [if_neg hpk', if_neg hpk']
          exact ih (show dictPop t k = some (r.1, r.2) from hh)

theorem queueAppend_mem {qs : List (String × List String)} {qn tp : String}
    {qs' : List (String × List String)} (h : queueAppend qs qn tp = some qs')
    {p' : String × List String} (hp : p' ∈ qs') :
    p' ∈ qs ∨ ∃ l, (qn, l) ∈ qs ∧ p' = (qn, l ++ [tp]) := by
  induction qs generalizing qs' with
  | nil => cases h
  | cons p t ih =>
    rw [queueAppend] at h
    by_cases hpq : p.1 = qn
    · rw [if_pos hpq] at h
      have h2 := Option.some_inj.mp h
      subst h2
      rcases List.mem_cons.mp hp with hp1 | hp2
      · right
        refine ⟨p.2, ?_, by rw [hp1, hpq]⟩
        rw [← hpq]
        exact List.mem_cons_self _ _
      · left
        exact List.mem_cons_of_mem p hp2
    · rw [if_neg hpq] at h
      match hh : queueAppend t qn tp with
      | none => rw [hh] at h; cases h
      | some t' =>
        rw [hh] at h
        have h2 := Option.some_inj.mp h
        subst h2
        rcases List.mem_cons.mp hp with hp1 | hp2
        · left; rw [hp1]; exact List.mem_cons_self _ _
        · rcases ih hh hp2 with hin | ⟨l, hl, hpl⟩
          · left; exact List.mem_cons_of_mem p hin
          · right; exact ⟨l, List.mem_cons_of_mem p hl, hpl⟩

theorem queueAppend_extends {qs : List (String × List String)} {qn tp : String}
    {qs' : List (String × List String)} (h : queueAppend qs qn tp = some qs')
    {p : String × List String} (hp : p ∈ qs) :
    ∃ p' ∈ qs', p.1 = p'.1 ∧ ∀ x ∈ p.2, x ∈ p'.2 := by
  induction qs generalizing qs' with
  | nil => cases h
  | cons q t ih =>
    rw [queueAppend] at h
    by_cases hpq : q.1 = qn
    · rw [if_pos hpq] at h
      have h2 := Option.some_inj.mp h
      subst h2
      rcases List.mem_cons.mp hp with hp1 | hp2
      · subst hp1
        exact ⟨(p.1, p.2 ++ [tp]), List.mem_cons_self _ _, rfl,
          fun x hx => List.mem_append_left _ hx⟩
      · exact ⟨p, List.mem_cons_of_mem _ hp2, rfl, fun x hx => hx⟩
    · rw [if_neg hpq] at h
      match hh : queueAppend t qn tp with
      | none => rw [hh] at h; cases h
      | some t' =>
        rw [hh] at h
        have h2 := Option.some_inj.mp h
        subst h2
        rcases List.mem_cons.mp hp with hp1 | hp2
        · subst hp1
          exact ⟨p, List.mem_cons_self _ _, rfl, fun x hx => hx⟩
        · rcases ih hh hp2 with ⟨p', hp', h1, h2⟩
          exact ⟨p', List.mem_cons_of_mem _ hp', h1, h2⟩

theorem insertOne_fixed {fd : SyncFeeder} {f : String} {fd1 : SyncFeeder}
    (h : insertOne fd f = .ok fd1) :
    fd1.fnameToQname = fd.fnameToQname ∧
    fd1.fnameToTimepoint = fd.fnameToTimepoint ∧
    fd1.qnameToExpectedSize = fd.qnameToExpectedSize ∧
    fd1.doCheckSequence = fd.doCheckSequence ∧
    fd1.lastTimepoint = fd.lastTimepoint ∧
    fd1.lastMismatch = fd.lastMismatch ∧
    fd1.lastMismatchTime = fd.lastMismatchTime ∧
    fd1.mismatchWaitTime = fd.mismatchWaitTime := by
  rw [insertOne] at h
  repeat' split at h
  all_goals
    first
    | (have h1 := Except.ok.inj h
       subst h1
       exact ⟨rfl, rfl, rfl, rfl, rfl, rfl, rfl, rfl⟩)
    | cases h

theorem insertOne_queues_extend {fd : SyncFeeder} {f : String} {fd1 : SyncFeeder}
    (h : insertOne fd f = .ok fd1) {p : String × List String} (hp : p ∈ fd.queues) :
    ∃ p' ∈ fd1.queues, p.1 = p'.1 ∧ ∀ x ∈ p.2, x ∈ p'.2 := by
  rw [insertOne] at h
  split at h
  · have h1 := Except.ok.inj h
    subst h1
    exact ⟨p, hp, rfl, fun x hx => hx⟩
  · split at h
    · have h1 := Except.ok.inj h
      subst h1
      exact ⟨p, hp, rfl, fun x hx => hx⟩
    · split at h
      · cases h
      · rename_i qs' happ
        have h1 := Except.ok.inj h
        subst h1
        exact queueAppend_extends happ hp

theorem insertAll_fixed {fd : SyncFeeder} {batch : List String} {fd1 : SyncFeeder}
    (h : insertAll fd batch = .ok fd1) :
    fd1.fnameToQname = fd.fnameToQname ∧
    fd1.fnameToTimepoint = fd.fnameToTimepoint ∧
    fd1.qnameToExpectedSize = fd.qnameToExpectedSize ∧
    fd1.doCheckSequence = fd.doCheckSequence ∧
    fd1.lastTimepoint = fd.lastTimepoint ∧
    fd1.lastMismatch = fd.lastMismatch ∧
    fd1.lastMismatchTime = fd.lastMismatchTime ∧
    fd1.mismatchWaitTime = fd.mismatchWaitTime := by
  induction batch generalizing fd with
  | nil =>
    have h1 := Except.ok.inj h
    subst h1
    exact ⟨rfl, rfl, rfl, rfl, rfl, rfl, rfl, rfl⟩
  | cons f rest ih =>
    rw [insertAll] at h
    split at h
    · cases h
    · rename_i fd0 hone
      obtain ⟨a1, a2, a3, a4, a5, a6, a7, a8⟩ := insertOne_fixed hone
      obtain ⟨b1, b2, b3, b4, b5, b6, b7, b8⟩ := ih h
      exact ⟨b1.trans a1, b2.trans a2, b3.trans a3, b4.trans a4,
        b5.trans a5, b6.trans a6, b7.trans a7, b8.trans a8⟩

theorem insertAll_queues_extend {fd : SyncFeeder} {batch : List String} {fd1 : SyncFeeder}
    (h : insertAll fd batch = .ok fd1) {p : String × List String} (hp : p ∈ fd.queues) :
    ∃ p' ∈ fd1.queues, p.1 = p'.1 ∧ ∀ x ∈ p.2, x ∈ p'.2 := by
  induction batch generalizing fd p with
  | nil =>
    have h1 := Except.ok.inj h
    subst h1
    exact ⟨p, hp, rfl, fun x hx => hx⟩
  | cons f rest ih =>
    rw [insertAll] at h
    split at h
    · cases h
    · rename_i fd0 hone
      rcases insertOne_queues_extend hone hp with ⟨p0, hp0, h01, h02⟩
      rcases ih h hp0 with ⟨p', hp', h11, h12⟩
      exact ⟨p', hp', h01.trans h11, fun x hx => h12 x (h02 x hx)⟩

/-! ## Sort-phase lemmas -/

theorem sortPhase_pairwise (qs : List (String × List String)) :
    ∀ p ∈ sortPhase qs, p.2.Pairwise (· < ·) := by
  intro p hp
  rcases List.mem_map.mp hp with ⟨q, hq, hqp⟩
  rw [← hqp]
  exact sortQueue_pairwise q.2

theorem sortPhase_mem_from {qs : List (String × List String)}
    {p' : String × List String} (hp : p' ∈ sortPhase qs) :
    ∃ p ∈ qs, p'.1 = p.1 ∧ ∀ x ∈ p'.2, x ∈ p.2 := by
  rcases List.mem_map.mp hp with ⟨q, hq, hqp⟩
  refine ⟨q, hq, ?_, ?_⟩
  · rw [← hqp]
  · intro x hx
    rw [← hqp] at hx
    exact mem_of_mem_sortQueue hx

theorem sortPhase_mem_to {qs : List (String × List String)}
    {p : String × List String} (hp : p ∈ qs) :
    ∃ p' ∈ sortPhase qs, p.1 = p'.1 ∧ ∀ x ∈ p.2, x ∈ p'.2 := by
  refine ⟨(p.1, sortQueue p.2), ?_, rfl, ?_⟩
  · exact List.mem_map.mpr ⟨p, hp, rfl⟩
  · intro x hx
    exact mem_sortQueue_of_mem hx

/-! ## `popAll` lemmas -/

theorem popAll_ok_fields {fd : SyncFeeder} {keys : List (String × String)}
    {fd' : SyncFeeder} {vs : List String} (h : popAll fd keys = .ok (fd', vs)) :
    fd'.queues = fd.queues ∧
    fd'.fnameToQname = fd.fnameToQname ∧
    fd'.fnameToTimepoint = fd.fnameToTimepoint ∧
    fd'.qnameToExpectedSize = fd.qnameToExpectedSize ∧
    fd'.doCheckSequence = fd.doCheckSequence ∧
    fd'.lastTimepoint = fd.lastTimepoint ∧
    fd'.lastMismatch = fd.lastMismatch ∧
    fd'.lastMismatchTime = fd.lastMismatchTime ∧
    fd'.mismatchWaitTime = fd.mismatchWaitTime := by
  induction keys generalizing fd fd' vs with
  | nil =>
    simp only [popAll, Except.ok.injEq, Prod.mk.injEq] at h
    obtain ⟨h1, -⟩ := h
    subst h1
    exact ⟨rfl, rfl, rfl, rfl, rfl, rfl, rfl, rfl, rfl⟩
  | cons k rest ih =>
    rw [popAll] at h
    split at h
    · cases h
    · rename_i r hpop
      split at h
      · cases h
      · rename_i r2 hrec
        simp only [Except.ok.injEq, Prod.mk.injEq] at h
        obtain ⟨h1, -⟩ := h
        subst h1
        have step := ih (show popAll { fd with keysToFullnames := r.2 } rest =
          .ok (r2.1, r2.2) from hrec)
        exact step

theorem popAll_lookup {fd : SyncFeeder} {keys : List (String × String)}
    {fd' : SyncFeeder} {vs : List String} (h : popAll fd keys = .ok (fd', vs))
    {k' : String × String} (hk : k' ∉ keys) :
    dictLookup fd'.keysToFullnames k' = dictLookup fd.keysToFullnames k' := by
  induction keys generalizing fd fd' vs with
  | nil =>
    simp only [popAll, Except.ok.injEq, Prod.mk.injEq] at h
    obtain ⟨h1, -⟩ := h
    subst h1
    rfl
  | cons k rest ih =>
    rw [popAll] at h
    split at h
    · cases h
    · rename_i r hpop
      split at h
      · cases h
      · rename_i r2 hrec
        simp only [Except.ok.injEq, Prod.mk.injEq] at h
        obtain ⟨h1, -⟩ := h
        subst h1
        have hks : k' ≠ k ∧ k' ∉ rest := by
          constructor
          · intro hh; exact hk (hh ▸ List.mem_cons_self k rest)
          · intro hh; exact hk (List.mem_cons_of_mem k hh)
        have step := ih (show popAll { fd with keysToFullnames := r.2 } rest =
          .ok (r2.1, r2.2) from hrec) hks.2
        rw [step]
        exact dictPop_lookup_ne (show dictPop fd.keysToFullnames k = some (r.1, r.2)
          from hpop) hks.1

theorem mem_listProd {q t : String} {qs ms : List String} :
    (q, t) ∈ listProd qs ms ↔ q ∈ qs ∧ t ∈ ms := by
  induction qs with
  | nil => simp [listProd]
  | cons a rest ih =>
    rw [listProd, List.mem_append, ih]
    constructor
    · intro hh
      rcases hh with hh | ⟨h1, h2⟩
      · rcases List.mem_map.mp hh with ⟨m, hm, hmq⟩
        have hq : a = q := congrArg Prod.fst hmq
        have hm2 : m = t := congrArg Prod.snd hmq
        subst hq; subst hm2
        exact ⟨List.mem_cons_self _ _, hm⟩
      · exact ⟨List.mem_cons_of_mem a h1, h2⟩
    · intro ⟨h1, h2⟩
      rcases List.mem_cons.mp h1 with hq | hq
      · subst hq
        exact Or.inl (List.mem_map.mpr ⟨t, h2, rfl⟩)
      · exact Or.inr ⟨hq, h2⟩

/-! ## Decomposition of a successful `match_filenames` call -/

theorem matchFilenames_decomp {fd : SyncFeeder} {now : Int} {sz : String → Int}
    {batch : List String} {fd' : SyncFeeder} {res : List String}
    (h : matchFilenames fd now sz batch = .ok (fd', res)) :
    ∃ fd1 matching fd3 ds0 fd4 ms fd5 fullnames,
      insertAll fd batch = .ok fd1 ∧
      getMatchingFirstEntry { fd1 with queues := sortPhase fd1.queues } now =
        .ok (matching, fd3, ds0) ∧
      matchLoopFuel now (sumLen fd3.queues + 2) fd3 matching = .ok (fd4, ms) ∧
      popAll fd4 (listProd (fd4.queues.map (fun p => p.1)) ms) = .ok (fd5, fullnames) ∧
      fd'.queues = fd5.queues ∧
      fd'.keysToFullnames = fd5.keysToFullnames ∧
      fd'.lastMismatch = fd5.lastMismatch ∧
      fd'.lastTimepoint = fd5.lastTimepoint := by
  rw [matchFilenames] at h
  split at h
  · cases h
  · rename_i fd1 hins
    split at h
    · cases h
    · rename_i matching fd3 ds0 hgm
      split at h
      · cases h
      · rename_i fd4 ms hloop
        split at h
        · cases h
        · rename_i fd5 fullnames hpop
          split at h
          all_goals
            simp only [Except.ok.injEq, Prod.mk.injEq] at h
          · obtain ⟨h1, -⟩ := h
            subst h1
            exact ⟨fd1, matching, fd3, ds0, fd4, ms, fd5, fullnames,
              hins, hgm, hloop, hpop, rfl, rfl, rfl, rfl⟩
          · obtain ⟨h1, -⟩ := h
            subst h1
            exact ⟨fd1, matching, fd3, ds0, fd4, ms, fd5, fullnames,
              hins, hgm, hloop, hpop, rfl, rfl, rfl, rfl⟩

/-! ## The filename-index invariant (claim C3, the direction that holds) -/

/-- Every key currently in some queue has an entry in the filename index. -/
def IndexCovers (fd : SyncFeeder) : Prop :=
  ∀ p ∈ fd.queues, ∀ t ∈ p.2, (dictLookup fd.keysToFullnames (p.1, t)).isSome = true

theorem indexCovers_of_suffix {fd fd' : SyncFeeder}
    (hk : fd'.keysToFullnames = fd.keysToFullnames)
    (hq : QueuesSuffix fd'.queues fd.queues) (hic : IndexCovers fd) : IndexCovers fd' := by
  intro p' hp' t ht
  rcases hq.mem hp' with ⟨p, hp, h1, hsuf⟩
  rw [hk, h1]
  exact hic p hp t (hsuf.subset ht)

theorem insertOne_indexCovers {fd : SyncFeeder} {f : String} {fd1 : SyncFeeder}
    (h : insertOne fd f = .ok fd1) (hic : IndexCovers fd) : IndexCovers fd1 := by
  rw [insertOne] at h
  split at h
  · have h1 := Except.ok.inj h
    subst h1
    exact hic
  · rename_i qn hqn
    split at h
    · have h1 := Except.ok.inj h
      subst h1
      exact hic
    · rename_i tp htp
      split at h
      · cases h
      · rename_i qs' happ
        have h1 := Except.ok.inj h
        subst h1
        intro p' hp' t ht
        rcases queueAppend_mem happ hp' with hold | ⟨l, hl, hpl⟩
        · by_cases hkey : (p'.1, t) = (qn, tp)
          · show (dictLookup (dictInsert fd.keysToFullnames (qn, tp) f) (p'.1, t)).isSome = true
            rw [hkey, dictLookup_dictInsert_self]
            rfl
          · show (dictLookup (dictInsert fd.keysToFullnames (qn, tp) f) (p'.1, t)).isSome = true
            rw [dictLookup_dictInsert_ne f hkey]
            exact hic p' hold t ht
        · subst hpl
          show (dictLookup (dictInsert fd.keysToFullnames (qn, tp) f) (qn, t)).isSome = true
          rcases List.mem_append.mp ht with htl | htp2
          · by_cases hkey : ((qn, t) : String × String) = (qn, tp)
            · rw [hkey, dictLookup_dictInsert_self]
              rfl
            · rw [dictLookup_dictInsert_ne f hkey]
              exact hic (qn, l) hl t htl
          · have : t = tp := List.mem_singleton.mp htp2
            subst this
            rw [dictLookup_dictInsert_self]
            rfl

theorem insertAll_indexCovers {fd : SyncFeeder} {batch : List String} {fd1 : SyncFeeder}
    (h : insertAll fd batch = .ok fd1) (hic : IndexCovers fd) : IndexCovers fd1 := by
  induction batch generalizing fd with
  | nil =>
    have h1 := Except.ok.inj h
    subst h1
    exact hic
  | cons f rest ih =>
    rw [insertAll] at h
    split at h
    · cases h
    · rename_i fd0 hone
      exact ih h (insertOne_indexCovers hone hic)

/-- The tails left after a matched head are strictly above the matched key. -/
theorem gmfe_post_bound {fd : SyncFeeder} {now : Int} {m0 : String} {fd' : SyncFeeder}
    {ds : List String} (h : getMatchingFirstEntry fd now = .ok (some m0, fd', ds))
    (hsorted : ∀ p ∈ fd.queues, p.2.Pairwise (· < ·)) :
    ∀ p ∈ fd'.queues, ∀ e ∈ p.2, m0 < e := by
  obtain ⟨hq, -, hheads⟩ := gmfe_some h
  intro p hp e he
  rw [hq] at hp
  rcases List.mem_map.mp hp with ⟨q, hqmem, hqp⟩
  have hhead := hheads q hqmem
  match hq2 : q.2, hhead, he with
  | a :: t, hhead, he =>
    have ha : a = m0 := Option.some_inj.mp (by rw [← List.head?_cons]; exact hhead)
    subst ha
    have hqsorted := hsorted q hqmem
    rw [hq2] at hqsorted
    have hpt : p.2 = t := by rw [← hqp]; simp [hq2]
    rw [hpt] at he
    exact (List.pairwise_cons.mp hqsorted).1 e he

/-- A successful `match_filenames` call preserves the filename-index
invariant: matched keys are removed from all queues before their index
entries are popped, and nothing else leaves the index. -/
theorem matchFilenames_indexCovers {fd : SyncFeeder} {now : Int} {sz : String → Int}
    {batch : List String} {fd' : SyncFeeder} {res : List String}
    (h : matchFilenames fd now sz batch = .ok (fd', res)) (hic : IndexCovers fd) :
    IndexCovers fd' := by
  obtain ⟨fd1, matching, fd3, ds0, fd4, ms, fd5, fullnames, hins, hgm, hloop, hpop,
    hq, hk, -, -⟩ := matchFilenames_decomp h
  have hic1 : IndexCovers fd1 := insertAll_indexCovers hins hic
  have hic2 : IndexCovers { fd1 with queues := sortPhase fd1.queues } := by
    intro p' hp' t ht
    rcases sortPhase_mem_from hp' with ⟨p, hp, h1, h2⟩
    show (dictLookup fd1.keysToFullnames (p'.1, t)).isSome = true
    rw [h1]
    exact hic1 p hp t (h2 t ht)
  obtain ⟨g1, -, -, -, -, -, -, g8⟩ := gmfe_ok_fields hgm
  have hic3 : IndexCovers fd3 := indexCovers_of_suffix g1 g8 hic2
  obtain ⟨l1, -, -, -, -, -, l7⟩ := matchLoopFuel_ok_fields hloop
  have hic4 : IndexCovers fd4 := indexCovers_of_suffix l1 l7 hic3
  have hs2 : ∀ p ∈ sortPhase fd1.queues, p.2.Pairwise (· < ·) := sortPhase_pairwise _
  have hs3 : ∀ p ∈ fd3.queues, p.2.Pairwise (· < ·) := queuesSuffix_pairwise g8 hs2
  have hgt3 : ∀ x, matching = some x → ∀ p ∈ fd3.queues, ∀ e ∈ p.2, x < e := by
    intro x hx
    subst hx
    exact gmfe_post_bound hgm hs2
  have hnotin := matchLoopFuel_notin hloop hs3 hgt3
  obtain ⟨pq, -⟩ := popAll_ok_fields hpop
  intro p' hp' t ht
  rw [hq, pq] at hp'
  have hkey : ((p'.1, t) : String × String) ∉
      listProd (fd4.queues.map (fun p => p.1)) ms := by
    intro hmem
    rcases mem_listProd.mp hmem with ⟨-, htm⟩
    exact hnotin t htm p' hp' ht
  rw [hk, popAll_lookup hpop hkey]
  exact hic4 p' hp' t ht

/-- The filename index covers the queues in every reachable feeder state. -/
theorem reachable_indexCovers {fd : SyncFeeder} (h : Reachable fd) : IndexCovers fd := by
  induction h with
  | init qnames fq ft cs cq =>
    intro p hp t ht
    rcases List.mem_map.mp hp with ⟨q, hq, hqp⟩
    rw [← hqp] at ht
    cases ht
  | step now sz batch res hre heq ih => exact matchFilenames_indexCovers heq ih

/-! ## The empty-string mismatch-key invariant (claim C6) -/

theorem matchFilenames_mismatchKeyQueued {fd : SyncFeeder} {now : Int} {sz : String → Int}
    {batch : List String} {fd' : SyncFeeder} {res : List String}
    (h : matchFilenames fd now sz batch = .ok (fd', res)) : MismatchKeyQueued fd' := by
  obtain ⟨fd1, matching, fd3, ds0, fd4, ms, fd5, fullnames, hins, hgm, hloop, hpop,
    hq, -, hlm, -⟩ := matchFilenames_decomp h
  have hK3 : MismatchKeyQueued fd3 := gmfe_mismatchKeyQueued hgm
  have hK4 : MismatchKeyQueued fd4 := matchLoopFuel_mismatchKeyQueued hloop hK3
  obtain ⟨pq, -, -, -, -, -, plm, -⟩ := popAll_ok_fields hpop
  intro hs
  rw [hlm, plm] at hs
  rcases hK4 hs with ⟨p, hp, hmem⟩
  refine ⟨p, ?_, hmem⟩
  rw [hq, pq]
  exact hp

theorem reachable_mismatchKeyQueued {fd : SyncFeeder} (h : Reachable fd) :
    MismatchKeyQueued fd := by
  induction h with
  | init qnames fq ft cs cq => intro hs; exact Option.noConfusion hs
  | step now sz batch res hre heq ih => exact matchFilenames_mismatchKeyQueued heq

/-! ## Some quick evaluation checks of the helpers -/

example : filenameSplitParts "img_01" = ("img", "01") := by decide
example : filenameSplitParts "dir/foo_abc.txt" = ("foo", "abc") := by decide
example : filenameSplitParts "img" = ("img", "") := by decide
example : pyInt "01" = some 1 := by decide
example : pyInt "ab" = none := by decide
example : pyMin (some "") (some "02") = some "" := by decide
example : pySorted ["img_01", "behav_01"] = ["behav_01", "img_01"] := by decide
example : sortQueue ["01", ""] = ["", "01"] := by decide
example : sortQueue ["01", "02", "02", ""] = ["", "01", "02"] := by decide
example : dedupKeys ["img", "behav", "img"] = ["img", "behav"] := by decide

/-! ## The two-stream feeder of the concrete scenarios -/

/-- A feeder for streams `img` and `behav` with the default key extractors,
size filtering disabled and sequence checking enabled (the constructor
defaults). -/
def twoStreamFeeder : SyncFeeder :=
  mkSyncFeeder ["img", "behav"] defaultQnameFcn defaultTimepointFcn false true

/-- Scenario B batch: `img` has `01,02,03`, `behav` only `01,03`. -/
def scenarioBBatch : List String :=
  ["img_01", "img_02", "img_03", "behav_01", "behav_03"]

/-- Scenario B state after the first call (at time 0): key `01` matched,
mismatch `("02", 0)` recorded. -/
def scenarioBState1 : SyncFeeder := stateAfter twoStreamFeeder 0 scenarioBBatch

/-- Scenario B state after the second call (at time 6, past the grace
period): `img`'s `02` evicted. -/
def scenarioBState2 : SyncFeeder := stateAfter scenarioBState1 6 []

-- engine trace checks
example :
    (runMatch twoStreamFeeder 0
      ["img_01", "img_02", "img_03", "behav_01", "behav_02", "behav_03"]).map (fun r => r.2) =
    .ok ["behav_01", "behav_02", "behav_03", "img_01", "img_02", "img_03"] := rfl
example : (runMatch twoStreamFeeder 0 scenarioBBatch).map (fun r => r.2) =
    .ok ["behav_01", "img_01"] := rfl
example : scenarioBState1.queues = [("img", ["02", "03"]), ("behav", ["03"])] := by decide
example : scenarioBState1.lastMismatch = some "02" := by decide
example : scenarioBState1.lastMismatchTime = some 0 := by decide
example : (runMatch scenarioBState1 6 []).map (fun r => r.2) = .ok [] := rfl
example : scenarioBState2.queues = [("img", ["03"]), ("behav", ["03"])] := by decide
example : (runMatch scenarioBState2 7 []).map (fun r => r.2) =
    .ok ["behav_03", "img_03"] := rfl

/-! ## Size-filter lemmas (claim C7) -/

theorem sizeSetdefault_lookup_self (exp : List (Option String × Int))
    (k : Option String) (v : Int) :
    sizeLookup (sizeSetdefault exp k v).2 k = some (sizeSetdefault exp k v).1 := by
  match hf : exp.find? (fun p => p.1 = k) with
  | some p =>
    have hs : sizeSetdefault exp k v = (p.2, exp) := by rw [sizeSetdefault, hf]
    rw [hs, sizeLookup, hf]
    rfl
  | none =>
    have hs : sizeSetdefault exp k v = (v, exp ++ [(k, v)]) := by rw [sizeSetdefault, hf]
    rw [hs, sizeLookup, List.find?_append, hf]
    simp [List.find?]

theorem sizeLookup_append_of_some {exp : List (Option String × Int)}
    {q : Option String} {v : Int} (h : sizeLookup exp q = some v)
    (kv : Option String × Int) : sizeLookup (exp ++ [kv]) q = some v := by
  rw [sizeLookup] at h
  rw [sizeLookup, List.find?_append]
  match hf : exp.find? (fun p => p.1 = q) with
  | some p =>
    rw [hf] at h
    rw [hf]
    exact h
  | none =>
    rw [hf] at h
    cases h

theorem sizeSetdefault_lookup_persist {exp : List (Option String × Int)}
    {q : Option String} {v : Int} (h : sizeLookup exp q = some v)
    (k : Option String) (d : Int) :
    sizeLookup (sizeSetdefault exp k d).2 q = some v := by
  match hf : exp.find? (fun p => p.1 = k) with
  | some p =>
    have hs : sizeSetdefault exp k d = (p.2, exp) := by rw [sizeSetdefault, hf]
    rw [hs]
    exact h
  | none =>
    have hs : sizeSetdefault exp k d = (d, exp ++ [(k, d)]) := by rw [sizeSetdefault, hf]
    rw [hs]
    exact sizeLookup_append_of_some h (k, d)

theorem sizePass_lookup_persist {qf tf : String → Option String} {sizeOf : String → Int}
    {fns : List String} {exp : List (Option String × Int)}
    {q : Option String} {v : Int} (h : sizeLookup exp q = some v) :
    sizeLookup (sizePass qf tf sizeOf exp fns).1 q = some v := by
  induction fns generalizing exp with
  | nil => exact h
  | cons f rest ih =>
    rw [sizePass]
    have hstep := sizeSetdefault_lookup_persist h (qf (pyBasename f)) (sizeOf f)
    by_cases hflag : sizeOf f ≠ (sizeSetdefault exp (qf (pyBasename f)) (sizeOf f)).1
    · rw [if_pos hflag]
      exact ih hstep
    · rw [if_neg hflag]
      exact ih hstep

theorem sizePass_flags {qf tf : String → Option String} {sizeOf : String → Int}
    {fns : List String} {exp : List (Option String × Int)} {f : String}
    (hf : f ∈ fns) {es : Int}
    (hes : sizeLookup (sizePass qf tf sizeOf exp fns).1 (qf (pyBasename f)) = some es)
    (hne : sizeOf f ≠ es) :
    tf (pyBasename f) ∈ (sizePass qf tf sizeOf exp fns).2 := by
  induction fns generalizing exp with
  | nil => cases hf
  | cons g rest ih =>
    rcases List.mem_cons.mp hf with hfg | hfr
    · subst hfg
      rw [sizePass] at hes ⊢
      have hself := sizeSetdefault_lookup_self exp (qf (pyBasename f)) (sizeOf f)
      have hfinal : sizeLookup (sizePass qf tf sizeOf
          (sizeSetdefault exp (qf (pyBasename f)) (sizeOf f)).2 rest).1
          (qf (pyBasename f)) =
          some (sizeSetdefault exp (qf (pyBasename f)) (sizeOf f)).1 :=
        sizePass_lookup_persist hself
      have hes2 : es = (sizeSetdefault exp (qf (pyBasename f)) (sizeOf f)).1 := by
        by_cases hflag : sizeOf f ≠ (sizeSetdefault exp (qf (pyBasename f)) (sizeOf f)).1
        · rw [if_pos hflag] at hes
          exact Option.some_inj.mp (hes.symm.trans hfinal)
        · rw [if_neg hflag] at hes
          exact Option.some_inj.mp (hes.symm.trans hfinal)
      have hflag : sizeOf f ≠ (sizeSetdefault exp (qf (pyBasename f)) (sizeOf f)).1 := by
        rw [← hes2]; exact hne
      rw [if_pos hflag]
      exact List.mem_cons_self _ _
    · rw [sizePass] at hes ⊢
      by_cases hflag : sizeOf g ≠ (sizeSetdefault exp (qf (pyBasename g)) (sizeOf g)).1
      · rw [if_pos hflag] at hes ⊢
        exact List.mem_cons_of_mem _ (ih hfr hes)
      · rw [if_neg hflag] at hes ⊢
        exact ih hfr hes

/-! ## The raising branch of `check_and_pop_mismatches` (claim C6) -/

theorem cpm_raises {fd : SyncFeeder} {now : Int} {e : Option String}
    {rest : List (Option String)} {s m : String}
    (hnomatch : (e.isSome && rest.all (fun x => x == e)) = false)
    (hmin : pyFoldMin e rest = some m)
    (hlm : fd.lastMismatch = some s) (hs : s ≠ "") (hne : s ≠ m) :
    checkAndPopMismatches fd now (e :: rest) =
      .error "Current mismatch does not equal last mismatch - this should not happen" := by
  rw [checkAndPopMismatches]
  split
  · rename_i hcond
    rw [hnomatch] at hcond
    exact absurd hcond Bool.false_ne_true
  · split
    · rename_i heq
      rw [hmin] at heq
      cases heq
    · rename_i cur heq
      rw [hmin] at heq
      have hcm := Option.some_inj.mp heq
      subst hcm
      split
      · rename_i lm heq2
        rw [hlm] at heq2
        have hsl := Option.some_inj.mp heq2
        subst hsl
        rw [if_pos hs, if_pos hne]
      · rename_i heq2
        rw [hlm] at heq2
        cases heq2

/-! # Claim theorems -/

/-- C9: with streams `img` and `behav` and the default configuration, a
single `match()` call on an empty engine with the six filenames for keys
`01`, `02`, `03` returns all six filenames (all three timepoints), sorted
lexicographically. -/
theorem c9_single_call_returns_all_sorted :
    (runMatch twoStreamFeeder 0
      ["img_01", "img_02", "img_03", "behav_01", "behav_02", "behav_03"]).map
        (fun r => r.2) =
    .ok ["behav_01", "behav_02", "behav_03", "img_01", "img_02", "img_03"] := rfl

/-- C1 counterexample: in scenario B (`img` has `01,02,03`, `behav` only
`01,03`; mismatch `02` recorded at time 0), the `match()` call at time 6
(past the 5-unit grace period) does evict `img`'s `02` — the queues go from
`img:[02,03], behav:[03]` to `img:[03], behav:[03]` — but it returns the
empty list: the matching loop exits without re-checking after an eviction,
so the `03` match is not returned in that same call, contrary to the claim. -/
theorem c1_counterexample :
    scenarioBState1.queues = [("img", ["02", "03"]), ("behav", ["03"])] ∧
    scenarioBState1.lastMismatch = some "02" ∧
    scenarioBState1.lastMismatchTime = some 0 ∧
    (runMatch scenarioBState1 6 []).map (fun r => r.2) = .ok [] ∧
    scenarioBState2.queues = [("img", ["03"]), ("behav", ["03"])] :=
  ⟨by decide, by decide, by decide, rfl, by decide⟩

/-- C1 amended: when the eviction policy performs an eviction, the matching
loop is NOT re-checked within the same `match()` call (the code deliberately
waits for the next iteration): in scenario B the post-grace-period call
evicts `img`'s `02` and returns the empty list, and the matched filenames
for key `03` are returned by the next `match()` call. -/
theorem c1_amended_eviction_defers_match :
    (runMatch twoStreamFeeder 0 scenarioBBatch).map (fun r => r.2) =
      .ok ["behav_01", "img_01"] ∧
    (runMatch scenarioBState1 6 []).map (fun r => r.2) = .ok [] ∧
    scenarioBState2.queues = [("img", ["03"]), ("behav", ["03"])] ∧
    (runMatch scenarioBState2 7 []).map (fun r => r.2) = .ok ["behav_03", "img_03"] :=
  ⟨rfl, rfl, by decide, rfl⟩

/-- C2 counterexample: a filename whose extracted stream id (`other`) is
resolvable but not one of the engine's configured identifiers does not get
skipped with a warning: `qname_to_queue[qname]` raises `KeyError`, which
propagates out of `match()`. -/
theorem c2_counterexample :
    runMatch twoStreamFeeder 0 ["other_01"] = .error "KeyError: other" := rfl

/-- C2 amended: a filename whose stream id or timepoint is unresolvable
(extractor returns `None`) is skipped with a logged warning — the state is
entirely unchanged by it and no error is raised; but a resolvable stream id
that is not among the configured identifiers raises a `KeyError` that
propagates out of `match()`. -/
theorem c2_amended_only_unresolvable_skipped (fd : SyncFeeder) (f : String) :
    (fd.fnameToQname f = none → insertOne fd f = .ok fd) ∧
    (∀ q, fd.fnameToQname f = some q → fd.fnameToTimepoint f = none →
      insertOne fd f = .ok fd) ∧
    (∀ q tp, fd.fnameToQname f = some q → fd.fnameToTimepoint f = some tp →
      queueAppend fd.queues q tp = none →
      insertOne fd f = .error ("KeyError: " ++ q)) := by
  refine ⟨?_, ?_, ?_⟩
  · intro hq
    rw [insertOne, hq]
  · intro q hq ht
    simp only [insertOne, hq, ht]
  · intro q tp hq ht happ
    simp only [insertOne, hq, ht, happ]

/-- Witness for C2: the skip and the `KeyError` at concrete inputs. -/
theorem c2_witness :
    insertOne twoStreamFeeder "other_01" = .error ("KeyError: " ++ "other") :=
  (c2_amended_only_unresolvable_skipped twoStreamFeeder "other_01").2.2 "other" "01"
    rfl rfl rfl

/-- C3 counterexample: after the evicting call of scenario B, the filename
index still holds the entry for the evicted pair `(img, 02)` although `02`
is in no queue (the queues are `img:[03], behav:[03]`): eviction pops the
queue but never removes the index entry, so the index does not hold entries
for exactly the queued pairs. -/
theorem c3_counterexample :
    scenarioBState2.queues = [("img", ["03"]), ("behav", ["03"])] ∧
    dictLookup scenarioBState2.keysToFullnames ("img", "02") = some "img_02" :=
  ⟨by decide, by decide⟩

/-- C3 amended: after every `match()` call the filename index holds an entry
for AT LEAST every `(stream_id, timepoint_key)` pair currently present in
some stream queue; entries are removed when a key is matched, but an evicted
key's entry is left behind, so the index may also hold entries for pairs no
longer queued. -/
theorem c3_amended_index_covers_queues (fd : SyncFeeder) (h : Reachable fd) :
    IndexCovers fd :=
  reachable_indexCovers h

/-- Witness for C3: a reachable state with `01` queued for `img` whose index
entry is present. -/
theorem c3_witness :
    (dictLookup (stateAfter twoStreamFeeder 0 ["img_01"]).keysToFullnames
      ("img", "01")).isSome = true :=
  c3_amended_index_covers_queues (stateAfter twoStreamFeeder 0 ["img_01"])
    (Reachable.step 0 (fun _ => 0) ["img_01"] []
      (Reachable.init ["img", "behav"] defaultQnameFcn defaultTimepointFcn false true)
      rfl)
    ("img", ["01"]) (by decide) "01" (by decide)

/-- A state meeting C10's conditions (all queues non-empty, heads `""` and
`"02"` not all equal, minimum head the empty string) with a truthy tracked
mismatch key `01`. It is reachable: feed `img_01`/`behav_02` (recording
mismatch `01`), then the delimiterless filename `img`, whose timepoint key
is `""` and sorts to the front of `img`'s queue. -/
def falsyKeyState : SyncFeeder :=
  { twoStreamFeeder with
      queues := [("img", ["", "01"]), ("behav", ["02"])],
      keysToFullnames := [(("img", "01"), "img_01"), (("behav", "02"), "behav_02"),
        (("img", ""), "img")],
      lastMismatch := some "01",
      lastMismatchTime := some 0 }

/-- C10 counterexample: in `falsyKeyState` the conditions of the claim hold,
but `check_and_pop_mismatches` raises the internal-consistency exception
instead of taking the record-new-mismatch branch, because the truthy tracked
key `01` differs from the new minimum `""`. -/
theorem c10_counterexample :
    falsyKeyState.queues.map (fun p => p.2.head?) = [some "", some "02"] ∧
    pyFoldMin (some "") [some "02"] = some "" ∧
    checkAndPopMismatches falsyKeyState 100
        (falsyKeyState.queues.map (fun p => p.2.head?)) =
      .error "Current mismatch does not equal last mismatch - this should not happen" :=
  ⟨by decide, by decide, rfl⟩

/-- C10 amended: provided additionally that the tracked mismatch state is
falsy (`None` or the empty-string key), every `check_and_pop_mismatches`
call on a state whose queues are all non-empty, whose heads are not all
equal and whose minimum head is `""` takes the record-new-mismatch branch:
for every clock value it re-records `("", now)` — resetting the
first-observed time — evicts nothing and raises nothing; and the recorded
key `""` is itself falsy, so the grace-period comparison and the eviction
branch are never reached for that key no matter how much time elapses. -/
theorem c10_amended_falsy_key_rerecords (fd : SyncFeeder) (now : Int)
    (e : Option String) (rest : List (Option String))
    (hheads : fd.queues.map (fun p => p.2.head?) = e :: rest)
    (hnomatch : (e.isSome && rest.all (fun x => x == e)) = false)
    (hmin : pyFoldMin e rest = some "")
    (hfalsy : pyTruthy fd.lastMismatch = false) :
    checkAndPopMismatches fd now (fd.queues.map (fun p => p.2.head?)) =
      .ok (none, { fd with lastMismatch := some "", lastMismatchTime := some now }, []) ∧
    pyTruthy (some "") = false := by
  refine ⟨?_, rfl⟩
  rw [hheads, checkAndPopMismatches]
  split
  · rename_i hcond
    rw [hnomatch] at hcond
    exact absurd hcond Bool.false_ne_true
  · split
    · rename_i heq
      rw [hmin] at heq
      cases heq
    · rename_i cur heq
      rw [hmin] at heq
      have hcm := Option.some_inj.mp heq
      subst hcm
      split
      · rename_i lm heq2
        have hlm : lm = "" := by
          rw [heq2, pyTruthy] at hfalsy
          simpa using hfalsy
        subst hlm
        rw [if_neg (fun hh : ("" : String) ≠ "" => hh rfl)]
      · rfl

/-- The same state with the falsy-key hypothesis satisfied (no tracked
mismatch), for the C10 witness. -/
def falsyKeyStateCleared : SyncFeeder :=
  { falsyKeyState with lastMismatch := none, lastMismatchTime := none }

/-- Witness for C10: the record-new-mismatch branch at a concrete state. -/
theorem c10_witness :
    checkAndPopMismatches falsyKeyStateCleared 100
        (falsyKeyStateCleared.queues.map (fun p => p.2.head?)) =
      .ok (none,
        { falsyKeyStateCleared with
            lastMismatch := some "", lastMismatchTime := some 100 },
        []) ∧
    pyTruthy (some "") = false :=
  c10_amended_falsy_key_rerecords falsyKeyStateCleared 100 (some "") [some "02"]
    (by decide) (by decide) (by decide) (by decide)

/-- C8 counterexample: with sequence checking enabled (the default), a
matched key that does not parse as an integer makes `check_sequence` raise
`ValueError`, which propagates out of `match()` — the continuity check can
raise, blocking the whole batch, contrary to the claim that it only logs. -/
theorem c8_counterexample :
    runMatch twoStreamFeeder 0 ["img_ab", "behav_ab"] =
      .error "ValueError: invalid literal for int with base 10: ab" := rfl

/-- C8 amended: for matched keys that parse as integers, the continuity
check never raises, never blocks matching and never removes a key from the
batch: it only updates the cursor and computes whether to log a gap warning.
Scenario D: matched keys `01` then `05` across two calls are both returned,
and the `1 → 5` transition computes a gap warning (`true`). -/
theorem c8_amended_gap_only_warns :
    (∀ (last : Option Int) (s : String) (n : Int), pyInt s = some n →
      ∃ w, checkSequence last s = .ok (some n, w)) ∧
    checkSequence (some 1) "05" = .ok (some 5, true) ∧
    (runMatch twoStreamFeeder 0 ["img_01", "behav_01"]).map (fun r => r.2) =
      .ok ["behav_01", "img_01"] ∧
    (stateAfter twoStreamFeeder 0 ["img_01", "behav_01"]).lastTimepoint = some 1 ∧
    (runMatch (stateAfter twoStreamFeeder 0 ["img_01", "behav_01"]) 1
        ["img_05", "behav_05"]).map (fun r => r.2) = .ok ["behav_05", "img_05"] := by
  refine ⟨?_, rfl, rfl, by decide, rfl⟩
  intro last s n hn
  rw [checkSequence, hn]
  cases last with
  | none => exact ⟨false, rfl⟩
  | some l => exact ⟨decide (n ≠ l + 1), rfl⟩

/-- Witness for C8: the never-raises part at a concrete gap. -/
theorem c8_witness : ∃ w, checkSequence (some 3) "01" = .ok (some 1, w) :=
  c8_amended_gap_only_warns.1 (some 3) "01" 1 rfl

/-- C5: whenever a successful `check_and_pop_mismatches` call discards any
key `k`, the tracked mismatch equals the current minimum `cur`, the computed
`next_key` (the minimum head after removing the first occurrence of `cur`)
is an actual key `nk`, and `k < nk` — no key `≥ next_key` is ever
discarded. -/
theorem c5_no_overeviction (fd : SyncFeeder) (now : Int) (elts : List (Option String))
    (m : Option String) (fd' : SyncFeeder) (ds : List String) (k : String)
    (hcpm : checkAndPopMismatches fd now elts = .ok (m, fd', ds)) (hk : k ∈ ds) :
    ∃ cur nk, fd.lastMismatch = some cur ∧ nextKeyAfter elts cur = some (some nk) ∧
      k < nk := by
  match elts with
  | [] => cases hcpm
  | compElt :: restElts =>
    rw [checkAndPopMismatches] at hcpm
    split at hcpm
    · simp only [Except.ok.injEq, Prod.mk.injEq] at hcpm
      obtain ⟨-, -, h3⟩ := hcpm
      rw [← h3] at hk
      cases hk
    · split at hcpm
      · simp only [Except.ok.injEq, Prod.mk.injEq] at hcpm
        obtain ⟨-, -, h3⟩ := hcpm
        rw [← h3] at hk
        cases hk
      · rename_i cur hmin
        split at hcpm
        · rename_i lm hlm
          split at hcpm
          · split at hcpm
            · cases hcpm
            · rename_i hlmcur
              split at hcpm
              · cases hcpm
              · rename_i t0 ht0
                split at hcpm
                · split at hcpm
                  · cases hcpm
                  · rename_i nextElt hnext
                    simp only [Except.ok.injEq, Prod.mk.injEq] at hcpm
                    obtain ⟨-, -, h3⟩ := hcpm
                    rw [← h3] at hk
                    have hlt := mem_evictLoopFuel_discards hk
                    match nextElt, hnext, hlt with
                    | none, hnext, hlt => exact absurd hlt Bool.false_ne_true
                    | some nk, hnext, hlt =>
                      have hlmc : lm = cur := not_ne_iff.mp hlmcur
                      refine ⟨cur, nk, ?_, hnext, (pyStrLt_iff k nk).mp hlt⟩
                      rw [hlm, hlmc]
                · simp only [Except.ok.injEq, Prod.mk.injEq] at hcpm
                  obtain ⟨-, -, h3⟩ := hcpm
                  rw [← h3] at hk
                  cases hk
          · simp only [Except.ok.injEq, Prod.mk.injEq] at hcpm
            obtain ⟨-, -, h3⟩ := hcpm
            rw [← h3] at hk
            cases hk
        · simp only [Except.ok.injEq, Prod.mk.injEq] at hcpm
          obtain ⟨-, -, h3⟩ := hcpm
          rw [← h3] at hk
          cases hk

/-- Witness for C5: the eviction of scenario B discards `02`, strictly below
the computed next key `03`. -/
theorem c5_witness :
    ∃ cur nk, scenarioBState1.lastMismatch = some cur ∧
      nextKeyAfter [some "02", some "03"] cur = some (some nk) ∧ "02" < nk :=
  c5_no_overeviction scenarioBState1 6 [some "02", some "03"] none
    { scenarioBState1 with
        queues := [("img", ["03"]), ("behav", ["03"])],
        lastMismatch := none, lastMismatchTime := none }
    ["02"] "02" rfl (by decide)

/-- C7: with size-consistency filtering enabled, a candidate filename whose
byte size differs from the first size observed for its stream (the final
expected-size table entry — `setdefault` never overwrites, so this is
exactly the baseline in effect when the file was examined) is excluded from
the returned batch, and so is every other filename sharing its timepoint
key. -/
theorem c7_size_mismatch_excluded (qf tf : String → Option String)
    (sizeOf : String → Int) (exp : List (Option String × Int))
    (filenames : List String) (f g : String) (es : Int)
    (hf : f ∈ filenames)
    (hes : sizeLookup (sizePass qf tf sizeOf exp filenames).1 (qf (pyBasename f)) =
      some es)
    (hne : sizeOf f ≠ es)
    (htp : tf (pyBasename g) = tf (pyBasename f)) :
    g ∉ (filterSizeMismatchFiles qf tf sizeOf exp filenames).2 := by
  have hflag := sizePass_flags hf hes hne
  intro hmem
  have hne2 : (sizePass qf tf sizeOf exp filenames).2.isEmpty = false := by
    match hl : (sizePass qf tf sizeOf exp filenames).2 with
    | [] =>
      rw [hl] at hflag
      exact absurd hflag (List.not_mem_nil _)
    | a :: t => rfl
  simp only [filterSizeMismatchFiles] at hmem
  rw [hne2] at hmem
  simp only [Bool.false_eq_true, if_false] at hmem
  have hmem2 := List.mem_filter.mp hmem
  have hnotin := of_decide_eq_true hmem2.2
  rw [htp] at hnotin
  exact hnotin hflag

/-- Witness for C7: with baseline 100 for stream `img`, the 80-byte
`img_02` is excluded from the filtered batch. -/
theorem c7_witness :
    "img_02" ∉ (filterSizeMismatchFiles defaultQnameFcn defaultTimepointFcn
      (fun f => if f = "img_01" then 100 else 80) [] ["img_01", "img_02"]).2 :=
  c7_size_mismatch_excluded defaultQnameFcn defaultTimepointFcn
    (fun f => if f = "img_01" then 100 else 80) [] ["img_01", "img_02"]
    "img_02" "img_02" 100 (by decide) (by decide) (by decide) rfl

/-- Claim C4's property of a feeder state: every queue strictly sorted
ascending (equivalently: sorted with no duplicate keys). -/
def queuesSortedUnique (fd : SyncFeeder) : Prop :=
  ∀ p ∈ fd.queues, p.2.Pairwise (· < ·)

/-- C4: immediately after every successful `match()` call — from any prior
state, so in particular after every call of any call sequence — every stream
queue is sorted ascending with no duplicate timepoint keys. -/
theorem c4_queues_sorted_unique (fd fd' : SyncFeeder) (now : Int) (sz : String → Int)
    (batch res : List String)
    (h : matchFilenames fd now sz batch = .ok (fd', res)) : queuesSortedUnique fd' := by
  obtain ⟨fd1, matching, fd3, ds0, fd4, ms, fd5, fullnames, hins, hgm, hloop, hpop,
    hq, -, -, -⟩ := matchFilenames_decomp h
  have hs2 : ∀ p ∈ sortPhase fd1.queues, p.2.Pairwise (· < ·) := sortPhase_pairwise _
  obtain ⟨-, -, -, -, -, -, -, g8⟩ := gmfe_ok_fields hgm
  have hs3 : ∀ p ∈ fd3.queues, p.2.Pairwise (· < ·) := queuesSuffix_pairwise g8 hs2
  obtain ⟨-, -, -, -, -, -, l7⟩ := matchLoopFuel_ok_fields hloop
  have hs4 := queuesSuffix_pairwise l7 hs3
  obtain ⟨pq, -⟩ := popAll_ok_fields hpop
  intro p hp
  rw [hq, pq] at hp
  exact hs4 p hp

/-- Witness for C4: the queues after the first scenario-B call are strictly
sorted. -/
theorem c4_witness : queuesSortedUnique scenarioBState1 :=
  c4_queues_sorted_unique twoStreamFeeder scenarioBState1 0 (fun _ => 0) scenarioBBatch
    ["behav_01", "img_01"] rfl

/-- C6: in every reachable state, if after inserting and re-sorting a batch
the tracked mismatch state is non-empty (`some s`), every queue head exists,
the heads are not all equal, and the newly computed minimum head `m` differs
from `s`, then the `match()` call raises: the internal-consistency exception
of `check_and_pop_mismatches` propagates to the caller. (For the falsy
tracked key `s = ""` the hypotheses are contradictory in reachable states —
the invariant `reachable_mismatchKeyQueued` keeps `""` in some queue, so the
minimum head is again `""` — and for a truthy key the code raises
directly.) -/
theorem c6_mismatch_change_raises (fd fd1 : SyncFeeder) (now : Int) (sz : String → Int)
    (batch : List String) (s m : String) (e : Option String)
    (rest : List (Option String))
    (hreach : Reachable fd)
    (hins : insertAll fd batch = .ok fd1)
    (hlm : fd.lastMismatch = some s)
    (hheads : (sortPhase fd1.queues).map (fun p => p.2.head?) = e :: rest)
    (hnomatch : (e.isSome && rest.all (fun x => x == e)) = false)
    (hmin : pyFoldMin e rest = some m)
    (hne : m ≠ s) :
    ∃ msg, matchFilenames fd now sz batch = .error msg := by
  have hlm1 : fd1.lastMismatch = some s := by
    rw [(insertAll_fixed hins).2.2.2.2.2.1, hlm]
  by_cases hs : s = ""
  · -- contradictory: the `""` key is still at the head of some queue
    exfalso
    subst hs
    rcases reachable_mismatchKeyQueued hreach hlm with ⟨p, hp, hmem⟩
    rcases insertAll_queues_extend hins hp with ⟨p1, hp1, -, hsub1⟩
    rcases sortPhase_mem_to hp1 with ⟨p2, hp2, -, hsub2⟩
    have hmem2 : "" ∈ p2.2 := hsub2 "" (hsub1 "" hmem)
    have hsorted2 : p2.2.Pairwise (· < ·) := sortPhase_pairwise fd1.queues p2 hp2
    have hhead : p2.2.head? = some "" := by
      match hq2 : p2.2, hmem2 with
      | a :: t, hmem2 =>
        rw [List.head?_cons, Option.some_inj]
        have hsorted3 : (a :: t).Pairwise (· < ·) := by rw [← hq2]; exact hsorted2
        have hle : a ≤ "" :=
          sorted_head_le hsorted3 (List.head?_cons) hmem2
        exact le_antisymm hle (empty_string_le a)
    have hmemh : some "" ∈ (sortPhase fd1.queues).map (fun p => p.2.head?) :=
      List.mem_map.mpr ⟨p2, hp2, hhead⟩
    rw [hheads] at hmemh
    have hmle : m ≤ "" := by
      rcases List.mem_cons.mp hmemh with hE | hR
      · exact (pyFoldMin_le hmin).1 "" hE.symm
      · exact (pyFoldMin_le hmin).2 "" hR
    exact hne (le_antisymm hmle (empty_string_le m))
  · -- truthy tracked key: the first head check raises
    have hcall : checkAndPopMismatches { fd1 with queues := sortPhase fd1.queues } now
        (({ fd1 with queues := sortPhase fd1.queues } : SyncFeeder).queues.map
          (fun p => p.2.head?)) =
        .error "Current mismatch does not equal last mismatch - this should not happen" := by
      have hh : (({ fd1 with queues := sortPhase fd1.queues } : SyncFeeder).queues.map
          (fun p => p.2.head?)) = e :: rest := hheads
      rw [hh]
      exact cpm_raises hnomatch hmin hlm1 hs (fun hh2 => hne hh2.symm)
    have hgm : getMatchingFirstEntry { fd1 with queues := sortPhase fd1.queues } now =
        .error "Current mismatch does not equal last mismatch - this should not happen" := by
      rw [getMatchingFirstEntry, hcall]
    refine ⟨"Current mismatch does not equal last mismatch - this should not happen", ?_⟩
    rw [matchFilenames]
    split
    · rename_i e2 heq
      rw [hins] at heq
      cases heq
    · rename_i fd1b heq
      rw [hins] at heq
      have hfd1 := Except.ok.inj heq
      subst hfd1
      split
      · rename_i e2 heq2
        rw [hgm] at heq2
        have he2 := Except.error.inj heq2
        rw [he2]
      · rename_i matching fd3 ds0 heq2
        rw [hgm] at heq2
        cases heq2

/-- The reachable base state for the C6 witness: mismatch `01` recorded with
queues `img:[01]`, `behav:[02]`. -/
def c6BaseState : SyncFeeder := stateAfter twoStreamFeeder 0 ["img_01", "behav_02"]

/-- Witness for C6: feeding a late `behav_00` changes the minimum head to
`00` while the tracked mismatch is `01`, and the call raises. -/
theorem c6_witness :
    ∃ msg, matchFilenames c6BaseState 5 (fun _ => 0) ["behav_00"] = .error msg :=
  c6_mismatch_change_raises c6BaseState
    { c6BaseState with
        queues := [("img", ["01"]), ("behav", ["02", "00"])],
        keysToFullnames := c6BaseState.keysToFullnames ++ [(("behav", "00"), "behav_00")] }
    5 (fun _ => 0) ["behav_00"] "01" "00" (some "01") [some "00"]
    (Reachable.step 0 (fun _ => 0) ["img_01", "behav_02"] []
      (Reachable.init ["img", "behav"] defaultQnameFcn defaultTimepointFcn false true)
      rfl)
    rfl rfl (by decide) (by decide) (by decide) (by decide)
